import Mathlib

/-!
# gopsd `util/types.go`: descriptor decoder and renderer

A shallow embedding of `util/types.go` (package `util` of gopsd) and theorems
about it.

* Go `string` values are byte strings.  They are embedded as Lean `String`s in
  which the byte `b` is the character with code `b`.
* `int32` values are `Int`s in the range `[-2^31, 2^31)`.
* `float64` values are kept as their 64-bit pattern (a `Nat`).
* `map[string]*DescriptorEntity` is a key-unique association list: the key of
  an entry is the `Key` field of the entity stored under it (the code only ever
  executes `value[entity.Key] = entity`).  A Go map has no iteration order; the
  order of the list is a representation artefact, and `range` takes the order
  from a `RangeOrder`.
* A Go `panic` and an out-of-range read abort the whole call stack; they are
  the `error` outcome.  Recursion depth is bounded by a fuel argument, and
  running out of it is the separate outcome `outOfFuel`.
-/

namespace Gopsd

/-! ## The byte cursor (`Reader`) -/

/-- Modelled from the spec: the type `Reader` (its source file is not part of
`util/types.go`).  A buffer and a cursor position. -/
structure Reader where
  buf : List UInt8
  Position : Int
deriving DecidableEq

/-- The ways a decode aborts: a read that runs out of bytes, or the `panic` of
the decoder with its message. -/
inductive DecodeError where
  | endOfStream
  | panicked (msg : String)
deriving DecidableEq

/-- Outcome of a read or of a decode: a value together with the advanced
cursor, an abort, or exhaustion of the recursion fuel. -/
inductive Res (α : Type) where
  | ok (v : α) (rd : Reader)
  | error (e : DecodeError)
  | outOfFuel

/-- Sequencing of a read with what follows it: the continuation receives the
value read and the advanced cursor; an abort ends the sequence. -/
def Res.bind {α β : Type} (x : Res α) (f : α → Reader → Res β) : Res β :=
  match x with
  | .ok v rd => f v rd
  | .error e => .error e
  | .outOfFuel => .outOfFuel

/-- Lifting of the value of a successful outcome. -/
def Res.map {α β : Type} (f : α → β) : Res α → Res β
  | .ok v rd => .ok (f v) rd
  | .error e => .error e
  | .outOfFuel => .outOfFuel

/-- Big-endian value of a byte sequence. -/
def beNat (bs : List UInt8) : Nat :=
  bs.foldl (fun acc b => acc * 256 + b.toNat) 0

/-- Reinterpretation of an unsigned 32-bit value as `int32` (two's complement). -/
def toInt32 (u : Nat) : Int :=
  if u % 2 ^ 32 < 2 ^ 31 then (u % 2 ^ 32 : Nat) else (u % 2 ^ 32 : Nat) - 2 ^ 32

/-- The character that stands for the byte `b` in a Go string. -/
def byteChar (b : UInt8) : Char := Char.ofNat b.toNat

/-- The Go string made of the given bytes. -/
def bytesToString (bs : List UInt8) : String := String.mk (bs.map byteChar)

/-- Modelled from the spec: the raw read underlying every primitive of the
`Reader`: `n` bytes at the cursor, which then advances by `n`; "all reads fail
with an end-of-stream condition if insufficient bytes remain".  A negative
length or a cursor before the start of the buffer is out of range as well. -/
def Reader.readBytes (r : Reader) (n : Int) : Res (List UInt8) :=
  if 0 ≤ n ∧ 0 ≤ r.Position ∧ r.Position + n ≤ r.buf.length then
    .ok ((r.buf.drop r.Position.toNat).take n.toNat) ⟨r.buf, r.Position + n⟩
  else .error .endOfStream

/-- Modelled from the spec: `ReadByte() -> byte`. -/
def Reader.ReadByte (r : Reader) : Res UInt8 :=
  (r.readBytes 1).map (fun bs => bs.headD 0)

/-- Modelled from the spec: `ReadInt32() -> int32` (big-endian, 4 bytes). -/
def Reader.ReadInt32 (r : Reader) : Res Int :=
  (r.readBytes 4).map (fun bs => toInt32 (beNat bs))

/-- Modelled from the spec: `ReadFloat64() -> float64` (big-endian, 8 bytes);
the value is kept as its bit pattern. -/
def Reader.ReadFloat64 (r : Reader) : Res Nat :=
  (r.readBytes 8).map beNat

/-- Modelled from the spec: `ReadString(n) -> string` (n raw bytes, fixed
length, e.g. for 4-char tags). -/
def Reader.ReadString (r : Reader) (n : Int) : Res String :=
  (r.readBytes n).map bytesToString

/-- UTF-16 code units of a big-endian byte sequence (a trailing odd byte is
dropped; `ReadUnicodeString` always passes an even number of bytes). -/
def utf16Units : List UInt8 → List Nat
  | hi :: lo :: rest => (hi.toNat * 256 + lo.toNat) :: utf16Units rest
  | _ => []

/-- Decoding of UTF-16 code units to characters: a surrogate pair is one
character, an unpaired surrogate is U+FFFD. -/
def utf16Decode : List Nat → List Char
  | [] => []
  | [u] => [if 0xD800 ≤ u ∧ u < 0xE000 then Char.ofNat 0xFFFD else Char.ofNat u]
  | u :: v :: rest =>
    if 0xD800 ≤ u ∧ u < 0xDC00 ∧ 0xDC00 ≤ v ∧ v < 0xE000 then
      Char.ofNat (0x10000 + (u - 0xD800) * 0x400 + (v - 0xDC00)) :: utf16Decode rest
    else if 0xD800 ≤ u ∧ u < 0xE000 then
      Char.ofNat 0xFFFD :: utf16Decode (v :: rest)
    else
      Char.ofNat u :: utf16Decode (v :: rest)

/-- Modelled from the spec: `ReadUnicodeString() -> string` (leading 32-bit
code-unit count, followed by that many UTF-16BE code units, decoded to the
host string type). -/
def Reader.ReadUnicodeString (r : Reader) : Res String :=
  r.ReadInt32.bind fun count r1 =>
  (r1.readBytes (2 * count)).map (fun bs => String.mk (utf16Decode (utf16Units bs)))

/-- Modelled from the spec: `ReadDynamicString() -> string`: read a 32-bit
length; if zero, read the following 4 bytes as a literal tag string; otherwise
read that many ASCII bytes. -/
def Reader.ReadDynamicString (r : Reader) : Res String :=
  r.ReadInt32.bind fun length r1 =>
  if length = 0 then r1.ReadString 4 else r1.ReadString length

/-- Modelled from the spec: `Skip(n)`: advance the cursor n bytes without
materializing content.  The cursor is forward-only, so the skip is a read of
`n` bytes whose content is dropped: as every read it fails with the
end-of-stream condition if insufficient bytes remain, and a negative `n` is
out of range. -/
def Reader.Skip (r : Reader) (n : Int) : Res Unit :=
  (r.readBytes n).map (fun _ => ())

/-! ## Data model -/

/-- The Go struct `DescriptorEntity`, over the type `V` of the dynamic values an
`interface{}` can hold. -/
structure EntityOf (V : Type) where
  Key : String
  Type_ : String
  Value : V

/-- The Go struct `Descriptor`, over the type `V` of dynamic values.  `Items`
is the map, as a key-unique list of entities. -/
structure DescriptorOf (V : Type) where
  Name : String
  Class : String
  Items : List (EntityOf V)

/-- The Go struct `DescriptorUnitFloat`. -/
structure DescriptorUnitFloat where
  Type_ : String
  Value : Nat
deriving DecidableEq

/-- The Go struct `DescriptorClass`. -/
structure DescriptorClass where
  Name : String
  Class : String
deriving DecidableEq

/-- The Go struct `DescriptorEnum`. -/
structure DescriptorEnum where
  Type_ : String
  Enum : String
deriving DecidableEq

/-- The Go struct `DescriptorProperty`. -/
structure DescriptorProperty where
  Name : String
  Class : String
  Key : String
deriving DecidableEq

/-- The Go struct `DescriptorReferenceEnum`. -/
structure DescriptorReferenceEnum where
  Name : String
  Class : String
  Type_ : String
  Enum : String
deriving DecidableEq

/-- The Go struct `DescriptorOffset`. -/
structure DescriptorOffset where
  Name : String
  Class : String
  Value : Int
deriving DecidableEq

/-- The dynamic values stored in `DescriptorEntity.Value` (an `interface{}`):
one constructor per dynamic type the decoder stores, and `nil` for a field that
was never assigned. -/
inductive Value where
  | nil
  | map (items : List (EntityOf Value))
  | descriptor (d : DescriptorOf Value)
  | float64 (bits : Nat)
  | unitFloat (u : DescriptorUnitFloat)
  | string (s : String)
  | enum (e : DescriptorEnum)
  | int32 (n : Int)
  | bool (b : Bool)
  | class_ (c : DescriptorClass)
  | property (p : DescriptorProperty)
  | referenceEnum (e : DescriptorReferenceEnum)
  | offset (o : DescriptorOffset)

/-- The Go struct `DescriptorEntity`. -/
abbrev DescriptorEntity := EntityOf Value

/-- The Go struct `Descriptor`. -/
abbrev Descriptor := DescriptorOf Value

/-- The Go type `map[string]*DescriptorEntity`. -/
abbrev EntityMap := List DescriptorEntity

/-- The map assignment `value[entity.Key] = entity`: the entry under that key
is replaced, or a new entry is added. -/
def mapSet : EntityMap → DescriptorEntity → EntityMap
  | [], e => [e]
  | x :: xs, e => if x.Key = e.Key then e :: xs else x :: mapSet xs e

/-! ## The decoder -/

/-- The Go function `newDescriptorUnitFloat`. -/
def newDescriptorUnitFloat (reader : Reader) : Res DescriptorUnitFloat :=
  (reader.ReadString 4).bind fun ty r1 =>
  r1.ReadFloat64.bind fun v r2 =>
  .ok ⟨ty, v⟩ r2

/-- The Go function `newDescriptorClass`. -/
def newDescriptorClass (reader : Reader) : Res DescriptorClass :=
  reader.ReadUnicodeString.bind fun name r1 =>
  r1.ReadDynamicString.bind fun cls r2 =>
  .ok ⟨name, cls⟩ r2

/-- The Go function `newDescriptorEnum`. -/
def newDescriptorEnum (reader : Reader) : Res DescriptorEnum :=
  reader.ReadDynamicString.bind fun ty r1 =>
  r1.ReadDynamicString.bind fun en r2 =>
  .ok ⟨ty, en⟩ r2

/-- The Go function `newDescriptorProperty`. -/
def newDescriptorProperty (reader : Reader) : Res DescriptorProperty :=
  reader.ReadUnicodeString.bind fun name r1 =>
  r1.ReadDynamicString.bind fun cls r2 =>
  r2.ReadDynamicString.bind fun key r3 =>
  .ok ⟨name, cls, key⟩ r3

/-- The Go function `newDescriptorReferenceEnum`. -/
def newDescriptorReferenceEnum (reader : Reader) : Res DescriptorReferenceEnum :=
  reader.ReadUnicodeString.bind fun name r1 =>
  r1.ReadDynamicString.bind fun cls r2 =>
  r2.ReadDynamicString.bind fun ty r3 =>
  r3.ReadDynamicString.bind fun en r4 =>
  .ok ⟨name, cls, ty, en⟩ r4

/-- The Go function `newDescriptorOffset`. -/
def newDescriptorOffset (reader : Reader) : Res DescriptorOffset :=
  reader.ReadUnicodeString.bind fun name r1 =>
  r1.ReadDynamicString.bind fun cls r2 =>
  r2.ReadInt32.bind fun v r3 =>
  .ok ⟨name, cls, v⟩ r3

/-- The message of the `panic` in the `default` case of both decoding loops:
`fmt.Sprintf("Unknown OSType key [%s] in entity [%s]", entity.Type, entity.Key)`. -/
def unknownOSType (ty key : String) : String :=
  "Unknown OSType key [" ++ ty ++ "] in entity [" ++ key ++ "]"

/-- The `switch entity.Type` of `newDescriptorReference`: the value assigned to
`entity.Value` for a tag read, `Value.nil` where no assignment is made. -/
def referenceValue (ty : String) (reader : Reader) : Res Value :=
  if ty = "prop" then (newDescriptorProperty reader).map Value.property
  else if ty = "Clss" then (newDescriptorClass reader).map Value.class_
  else if ty = "Enmr" then (newDescriptorReferenceEnum reader).map Value.referenceEnum
  else if ty = "rele" then (newDescriptorOffset reader).map Value.offset
  else if ty = "Idnt" then .ok Value.nil reader
  else if ty = "indx" then .ok Value.nil reader
  else if ty = "name" then .ok Value.nil reader
  else .error (.panicked (unknownOSType ty ""))

/-- One iteration of the loop of `newDescriptorReference`, up to the map
assignment: `entity.Key` is never assigned there, so it is the empty string. -/
def referenceEntity (reader : Reader) : Res DescriptorEntity :=
  (reader.ReadString 4).bind fun ty r1 =>
  (referenceValue ty r1).map (fun v => ⟨"", ty, v⟩)

/-- The loop `for i := 0; i < int(count); i++ { ...; value[entity.Key] = entity }`
shared by `newDescriptorList` and `newDescriptorReference`: `n` iterations are
left, `value` is the map built so far, `body` decodes one entity. -/
def entityLoop (body : Reader → Res DescriptorEntity) :
    Nat → EntityMap → Reader → Res EntityMap
  | 0, value, reader => .ok value reader
  | n + 1, value, reader =>
    (body reader).bind fun entity r1 =>
    entityLoop body n (mapSet value entity) r1

/-- The Go function `newDescriptorReference`. -/
def newDescriptorReference (reader : Reader) : Res EntityMap :=
  reader.ReadInt32.bind fun count r1 =>
  entityLoop referenceEntity count.toNat [] r1

/-- The body of the Go function `NewDescriptor`, over the decoder `list` used
for the call `newDescriptorList(reader)`. -/
def descriptorWith (list : Reader → Res EntityMap) (reader : Reader) : Res Descriptor :=
  reader.ReadUnicodeString.bind fun name r1 =>
  r1.ReadDynamicString.bind fun cls r2 =>
  (list r2).map (fun items => ⟨name, cls, items⟩)

/-- The statement `reader.Skip(reader.ReadInt32())` of the `alis` and `tdta`
cases. -/
def skipLength (reader : Reader) : Res Unit :=
  reader.ReadInt32.bind fun n r1 =>
  r1.Skip n

/-- The `switch entity.Type` of `newDescriptorList`, over the decoder `list`
used for the recursive calls: the value assigned to `entity.Value`, `Value.nil`
where no assignment is made (`alis`, `tdta`). -/
def listValue (list : Reader → Res EntityMap) (ty key : String) (reader : Reader) :
    Res Value :=
  if ty = "obj " then (newDescriptorReference reader).map Value.map
  else if ty = "Objc" ∨ ty = "GlbO" then (descriptorWith list reader).map Value.descriptor
  else if ty = "VlLs" then (list reader).map Value.map
  else if ty = "doub" then reader.ReadFloat64.map Value.float64
  else if ty = "UntF" then (newDescriptorUnitFloat reader).map Value.unitFloat
  else if ty = "TEXT" then reader.ReadUnicodeString.map Value.string
  else if ty = "enum" then (newDescriptorEnum reader).map Value.enum
  else if ty = "long" then reader.ReadInt32.map Value.int32
  else if ty = "bool" then reader.ReadByte.map (fun b => Value.bool (b == 1))
  else if ty = "type" ∨ ty = "GlbC" then (newDescriptorClass reader).map Value.class_
  else if ty = "alis" then (skipLength reader).map (fun _ => Value.nil)
  else if ty = "tdta" then (skipLength reader).map (fun _ => Value.nil)
  else .error (.panicked (unknownOSType ty key))

/-- One iteration of the loop of `newDescriptorList`, up to the map
assignment. -/
def listEntity (list : Reader → Res EntityMap) (reader : Reader) : Res DescriptorEntity :=
  reader.ReadDynamicString.bind fun key r1 =>
  (r1.ReadString 4).bind fun ty r2 =>
  (listValue list ty key r2).map (fun v => ⟨key, ty, v⟩)

/-- The Go function `newDescriptorList`.  `fuel` bounds the depth of the
recursion through `VlLs`, `Objc` and `GlbO` entities. -/
def newDescriptorList : Nat → Reader → Res EntityMap
  | 0, _ => .outOfFuel
  | fuel + 1, reader =>
    reader.ReadInt32.bind fun count r1 =>
    entityLoop (listEntity (newDescriptorList fuel)) count.toNat [] r1

/-- The Go function `NewDescriptor`. -/
def NewDescriptor (fuel : Nat) (reader : Reader) : Res Descriptor :=
  descriptorWith (newDescriptorList fuel) reader


/-! ## The renderer -/

/-- Modelled from the spec: what the renderer takes from outside
`util/types.go`: the text of one indentation level and of a line break of the
helper `StringMixer` (`AddIndent`, `NewLine`), and the text `fmt.Sprint` gives
for a `float64` (by its bit pattern). -/
structure TextFormat where
  indentUnit : String
  newLine : String
  float : Nat → String

/-- Modelled from the spec: `StringMixer.AddIndent(n)`, `n` levels of
indentation. -/
def TextFormat.indent (F : TextFormat) (n : Nat) : String :=
  String.join (List.replicate n F.indentUnit)

/-- The order in which `for _, item := range items` visits the entries of a
map, which Go leaves unspecified: the positions of the entries in the list
that represents the map, in the order of the visit. -/
abbrev RangeOrder := EntityMap → List Nat

/-- A range order visits every entry of every map exactly once. -/
def RangeOrder.Valid (ρ : RangeOrder) : Prop :=
  ∀ items : EntityMap, (ρ items).Perm (List.range items.length)

/-- The range order that visits the entries in the order of their insertion. -/
def insertionOrder : RangeOrder := fun items => List.range items.length

/-- The range order that visits the entries in the reverse of that order. -/
def reverseOrder : RangeOrder := fun items => (List.range items.length).reverse

/-- The text built by a loop that visits the entries in the order `order` and
appends the text of each entry visited; `blocks` are the texts of the entries,
by position. -/
def visit (order : List Nat) (blocks : List String) : String :=
  String.join (order.map fun i => blocks.getD i "")

mutual
/-- The Go method `Descriptor.String`. -/
def Descriptor.String (F : TextFormat) (ρ : RangeOrder) : DescriptorOf Value → Nat → String
  | ⟨_, cls, items⟩, indent =>
    F.indent indent ++ "Descriptor [" ++ toString items.length ++ "]: " ++ cls ++ F.newLine
      ++ F.indent indent ++ "\x7b" ++ F.newLine
      ++ visit (ρ items) (itemStrings F ρ items.length items indent)
      ++ F.indent indent ++ "\x7d"
/-- The `switch value := item.Value.(type)` of `stringList`: the text appended
for the value of an item of type tag `ty`; `len` is `len(items)`, the size of
the map the item is in. -/
def valueString (F : TextFormat) (ρ : RangeOrder) (len : Nat) (ty : String) (indent : Nat) :
    Value → String
  | .map value =>
    (if ty = "obj " then
      F.indent (indent + 2) ++ "Reference [" ++ toString len ++ "]" ++ F.newLine
    else
      F.indent (indent + 2) ++ "List [" ++ toString len ++ "]" ++ F.newLine)
      ++ F.indent (indent + 2) ++ "\x7b" ++ F.newLine
      ++ visit (ρ value) (itemStrings F ρ value.length value (indent + 2))
      ++ F.indent (indent + 2) ++ "\x7d"
  | .descriptor d => F.newLine ++ Descriptor.String F ρ d (indent + 2)
  | .float64 bits => F.float bits
  | .int32 n => toString n
  | .bool b => toString b
  | .unitFloat u => "[Type: " ++ u.Type_ ++ ", Value: " ++ F.float u.Value ++ "]"
  | .string s => s
  | .enum e => "[Type: " ++ e.Type_ ++ ", Enum: " ++ e.Enum ++ "]"
  | .class_ c => "[Name: " ++ c.Name ++ ", Class: " ++ c.Class ++ "]"
  | .property p => "[Key: " ++ p.Key ++ " Name: " ++ p.Name ++ ", Class: " ++ p.Class ++ "]"
  | .offset o =>
    "[Name: " ++ o.Name ++ ", Class: " ++ o.Class ++ " Value: " ++ toString o.Value ++ "]"
  | .referenceEnum e =>
    "[Type: " ++ e.Type_ ++ ", Enum: " ++ e.Enum ++ ", Class: " ++ e.Class ++ " Name: "
      ++ e.Name ++ "]"
  | .nil => "?"
/-- The body of the loop of `stringList`, for each entry of the map: the text
appended when the entry is visited; `len` is `len(items)`. -/
def itemStrings (F : TextFormat) (ρ : RangeOrder) (len : Nat) :
    List (EntityOf Value) → Nat → List String
  | [], _ => []
  | ⟨key, ty, v⟩ :: rest, indent =>
    (F.indent (indent + 1) ++ "[" ++ ty ++ "] " ++ key ++ ": "
      ++ valueString F ρ len ty indent v ++ F.newLine) :: itemStrings F ρ len rest indent
end

/-- The Go function `stringList`. -/
def stringList (F : TextFormat) (ρ : RangeOrder) (items : EntityMap) (indent : Nat) : String :=
  visit (ρ items) (itemStrings F ρ items.length items indent)

/-- A text format for examples: two spaces per level, a line feed, and a
placeholder for floats. -/
def plainFormat : TextFormat := ⟨"  ", "\n", fun _ => "<float>"⟩


/-! ## Notions used in the statements -/

/-- The entities `es` are decoded one after the other by `body`, from the
cursor `r` to the cursor `rd`. -/
def DecodesSeq (body : Reader → Res DescriptorEntity) :
    Reader → List DescriptorEntity → Reader → Prop
  | r, [], rd => r = rd
  | r, e :: es, rd => ∃ r1, body r = .ok e r1 ∧ DecodesSeq body r1 es rd

/-- A decoder keeps the buffer, keeps the cursor inside the buffer, and on
every truncation of the buffer either does exactly what it does on the whole
buffer or runs out of bytes. -/
def Stable {α : Type} (f : Reader → Res α) : Prop :=
  ∀ (s : List UInt8) (p : Int) (v : α) (rd : Reader), f ⟨s, p⟩ = .ok v rd →
    rd.buf = s ∧ (p ≤ s.length → rd.Position ≤ s.length) ∧
    ∀ k : Nat, f ⟨s.take k, p⟩ = .ok v ⟨s.take k, rd.Position⟩ ∨
      f ⟨s.take k, p⟩ = .error .endOfStream

/-- The decoder `g` does what `f` does wherever `f` does not run out of fuel. -/
def Extends {α : Type} (f g : Reader → Res α) : Prop :=
  ∀ r, f r ≠ .outOfFuel → g r = f r

/-- The type tags with a case in the `switch` of `newDescriptorList`. -/
def listTags : List String :=
  ["obj ", "Objc", "GlbO", "VlLs", "doub", "UntF", "TEXT", "enum", "long", "bool",
    "type", "GlbC", "alis", "tdta"]


/-- What C1 says of the value of an entity: it is the variant the `switch` of
`newDescriptorList` selects for the type tag of the entity, holding what is
read from cursor `r2` (right after the tag), the read ending at cursor `r3`. -/
def ValueOfType (fuel : Nat) (entity : DescriptorEntity) (r2 r3 : Reader) : Prop :=
  (entity.Type_ = "obj " →
    ∃ m, newDescriptorReference r2 = .ok m r3 ∧ entity.Value = .map m) ∧
  (entity.Type_ = "Objc" ∨ entity.Type_ = "GlbO" →
    ∃ d, NewDescriptor fuel r2 = .ok d r3 ∧ entity.Value = .descriptor d) ∧
  (entity.Type_ = "VlLs" →
    ∃ m, newDescriptorList fuel r2 = .ok m r3 ∧ entity.Value = .map m) ∧
  (entity.Type_ = "doub" →
    ∃ x, r2.ReadFloat64 = .ok x r3 ∧ entity.Value = .float64 x) ∧
  (entity.Type_ = "UntF" →
    ∃ u, newDescriptorUnitFloat r2 = .ok u r3 ∧ entity.Value = .unitFloat u) ∧
  (entity.Type_ = "TEXT" →
    ∃ t, r2.ReadUnicodeString = .ok t r3 ∧ entity.Value = .string t) ∧
  (entity.Type_ = "enum" →
    ∃ en, newDescriptorEnum r2 = .ok en r3 ∧ entity.Value = .enum en) ∧
  (entity.Type_ = "long" →
    ∃ n, r2.ReadInt32 = .ok n r3 ∧ entity.Value = .int32 n) ∧
  (entity.Type_ = "bool" →
    ∃ b, r2.ReadByte = .ok b r3 ∧ entity.Value = .bool (b == 1)) ∧
  (entity.Type_ = "type" ∨ entity.Type_ = "GlbC" →
    ∃ c, newDescriptorClass r2 = .ok c r3 ∧ entity.Value = .class_ c)

/-- A call of one of the three mutually recursive decoders, with its fuel and
the cursor it starts at. -/
inductive Call where
  | descriptor (fuel : Nat) (reader : Reader)
  | list (fuel : Nat) (reader : Reader)
  | reference (reader : Reader)

/-- The call aborts with the error `e`. -/
def Call.failsWith : Call → DecodeError → Prop
  | .descriptor fuel reader, e => NewDescriptor fuel reader = .error e
  | .list fuel reader, e => newDescriptorList fuel reader = .error e
  | .reference reader, e => newDescriptorReference reader = .error e

/-- The first call makes the second one as a nested decode: `NewDescriptor`
calls `newDescriptorList` for its items after reading name and class;
`newDescriptorList`, having read the count and decoded `k` entities, `k` less
than the count, reads the key and the tag of the next entity and calls
`newDescriptorReference` (`obj `), `NewDescriptor` (`Objc`, `GlbO`) or
`newDescriptorList` (`VlLs`). -/
inductive Invokes : Call → Call → Prop
  | items {fuel : Nat} {reader r1 r2 : Reader} {name cls : String} :
    reader.ReadUnicodeString = .ok name r1 → r1.ReadDynamicString = .ok cls r2 →
    Invokes (.descriptor fuel reader) (.list fuel r2)
  | reference {fuel k : Nat} {reader r1 rk r2 r3 : Reader} {count : Int}
      {value : EntityMap} {key : String} :
    reader.ReadInt32 = .ok count r1 → (k : Int) < count →
    entityLoop (listEntity (newDescriptorList fuel)) k [] r1 = .ok value rk →
    rk.ReadDynamicString = .ok key r2 → r2.ReadString 4 = .ok "obj " r3 →
    Invokes (.list (fuel + 1) reader) (.reference r3)
  | descriptor {fuel k : Nat} {reader r1 rk r2 r3 : Reader} {count : Int}
      {value : EntityMap} {key ty : String} :
    reader.ReadInt32 = .ok count r1 → (k : Int) < count →
    entityLoop (listEntity (newDescriptorList fuel)) k [] r1 = .ok value rk →
    rk.ReadDynamicString = .ok key r2 → r2.ReadString 4 = .ok ty r3 →
    ty = "Objc" ∨ ty = "GlbO" →
    Invokes (.list (fuel + 1) reader) (.descriptor fuel r3)
  | list {fuel k : Nat} {reader r1 rk r2 r3 : Reader} {count : Int}
      {value : EntityMap} {key : String} :
    reader.ReadInt32 = .ok count r1 → (k : Int) < count →
    entityLoop (listEntity (newDescriptorList fuel)) k [] r1 = .ok value rk →
    rk.ReadDynamicString = .ok key r2 → r2.ReadString 4 = .ok "VlLs" r3 →
    Invokes (.list (fuel + 1) reader) (.list fuel r3)

/-! ## Encoded streams -/

/-- The four bytes of a 32-bit value, big-endian. -/
def be32 (n : Nat) : List UInt8 :=
  [UInt8.ofNat (n / 2 ^ 24), UInt8.ofNat (n / 2 ^ 16), UInt8.ofNat (n / 2 ^ 8), UInt8.ofNat n]

/-- The bytes of an ASCII text. -/
def ascii (s : String) : List UInt8 := s.toList.map fun c => UInt8.ofNat c.toNat

/-- A key as `ReadDynamicString` reads it: the 32-bit length, then the bytes. -/
def encodeKey (key : List UInt8) : List UInt8 := be32 key.length ++ key

/-- A `long` entity: key, tag, 32-bit value. -/
def encodeLong (key : String) (n : Nat) : List UInt8 :=
  encodeKey (ascii key) ++ ascii "long" ++ be32 n

/-- An entity list holding a `long` of value 42 and a `bool` of payload 1. -/
def longBoolStream : List UInt8 :=
  be32 2 ++ encodeLong "A" 42 ++ (encodeKey (ascii "B") ++ ascii "bool" ++ [1])

/-- A descriptor with empty name, class `desc` and the items `A`, `B`, `C`, in
that order, each a `long`. -/
def abcStream : List UInt8 :=
  be32 0 ++ (be32 0 ++ ascii "desc") ++ be32 3
    ++ encodeLong "A" 1 ++ encodeLong "B" 2 ++ encodeLong "C" 3

/-- An entity list whose second entity has the type tag `zzzz`. -/
def unknownTagStream : List UInt8 :=
  be32 2 ++ encodeLong "A" 42 ++ (encodeKey (ascii "B") ++ ascii "zzzz")

/-- An entity list with two entities under the same key `A`. -/
def duplicateKeyStream : List UInt8 :=
  be32 2 ++ encodeLong "A" 1 ++ encodeLong "A" 2

/-- A reference with two `Clss` items, of classes `abcd` and `efgh`. -/
def twoClassReferenceStream : List UInt8 :=
  be32 2 ++ (ascii "Clss" ++ be32 0 ++ (be32 0 ++ ascii "abcd"))
    ++ (ascii "Clss" ++ be32 0 ++ (be32 0 ++ ascii "efgh"))

/-- An entity list with one `bool` entity of payload byte `b`. -/
def boolStream (b : UInt8) : List UInt8 :=
  be32 1 ++ encodeKey (ascii "flag") ++ ascii "bool" ++ [b]

/-- The bytes `enc` are a key `key` as `ReadDynamicString` reads it: the 32-bit
length of the key (from 1 to 2^31 - 1) and its bytes, or, for a key of four
bytes, the length zero and the four bytes. -/
def EncodesKey (enc key : List UInt8) : Prop :=
  (0 < key.length ∧ key.length < 2 ^ 31 ∧ enc = be32 key.length ++ key) ∨
    (key.length = 4 ∧ enc = be32 0 ++ key)

/-- An entity list with one `VlLs` entity, whose list has one `VlLs` entity,
whose list has one `long` entity of value 42; `e1`, `e2`, `e3` are the encoded
keys. -/
def nestedListStream (e1 e2 e3 : List UInt8) : List UInt8 :=
  be32 1 ++ (e1 ++ ascii "VlLs" ++
    (be32 1 ++ (e2 ++ ascii "VlLs" ++
      (be32 1 ++ (e3 ++ ascii "long" ++ be32 42)))))

/-- An entity list with one entity of type tag `ty` (`alis` or `tdta`): the
32-bit length of `payload`, then `payload`. -/
def rawDataStream (ty : String) (payload : List UInt8) : List UInt8 :=
  be32 1 ++ (encodeKey (ascii "raw") ++ ascii ty ++ (be32 payload.length ++ payload))

/-- A descriptor whose item `L` is a list whose entity `X` has the type tag
`zzzz`. -/
def nestedUnknownTagStream : List UInt8 :=
  be32 0 ++ (be32 0 ++ ascii "desc") ++ be32 1
    ++ (encodeKey (ascii "L") ++ ascii "VlLs" ++
      (be32 1 ++ (encodeKey (ascii "X") ++ ascii "zzzz")))


/-- The reader stands in the buffer `pre ++ post`, right after `pre`. -/
def At (r : Reader) (pre post : List UInt8) : Prop :=
  r.buf = pre ++ post ∧ r.Position = pre.length

/-- A descriptor with the two items `A` and `B`. -/
def abDescriptor : Descriptor :=
  ⟨"", "desc", [⟨"A", "long", .int32 1⟩, ⟨"B", "long", .int32 2⟩]⟩

/-! ## The rectangle -/

/-- The Go struct `Rectangle`. -/
structure Rectangle where
  top : Int
  left : Int
  bottom : Int
  right : Int
deriving DecidableEq

/-- The result of an `int32` operation whose exact value is `x`: the value in
`[-2^31, 2^31)` congruent to `x` modulo 2^32. -/
def wrapInt32 (x : Int) : Int := toInt32 (x % 2 ^ 32).toNat

/-- The Go method `Rectangle.X`. -/
def Rectangle.X (r : Rectangle) : Int := r.left

/-- The Go method `Rectangle.Y`. -/
def Rectangle.Y (r : Rectangle) : Int := r.top

/-- The Go method `Rectangle.Width`. -/
def Rectangle.Width (r : Rectangle) : Int := wrapInt32 (r.right - r.left)

/-- The Go method `Rectangle.Height`. -/
def Rectangle.Height (r : Rectangle) : Int := wrapInt32 (r.bottom - r.top)

/-- The Go function `NewRectangle`; the four calls of the composite literal
are made from left to right. -/
def NewRectangle (reader : Reader) : Res Rectangle :=
  reader.ReadInt32.bind fun top r1 =>
  r1.ReadInt32.bind fun left r2 =>
  r2.ReadInt32.bind fun bottom r3 =>
  r3.ReadInt32.bind fun right r4 =>
  .ok ⟨top, left, bottom, right⟩ r4

/-! ## Notions used in the statements about the cursor -/

/-- The number of bytes of the buffer from the cursor on. -/
def Reader.remaining (r : Reader) : Nat := ((r.buf.length : Int) - r.Position).toNat

/-- A decoder that succeeds leaves the cursor in the same buffer, at a position
greater than or equal to the one it started at. -/
def Forward {α : Type} (f : Reader → Res α) : Prop :=
  ∀ (r : Reader) (v : α) (rd : Reader), f r = .ok v rd →
    rd.buf = r.buf ∧ r.Position ≤ rd.Position

/-- With fewer than `N` bytes from the cursor on, the decoder does not run out
of fuel: it returns a value or fails. -/
def Terminates {α : Type} (N : Nat) (f : Reader → Res α) : Prop :=
  ∀ r : Reader, r.remaining < N → f r ≠ .outOfFuel

/-! ## Notions used in the statements about the renderer -/

/-- The literal text of an Integer, Boolean or Text value: the decimal numeral,
`true` or `false`, the string itself. -/
def literalText : Value → Option String
  | .int32 n => some (toString n)
  | .bool b => some (if b then "true" else "false")
  | .string s => some s
  | _ => none

/-- An item line: the indentation of level `indent + 1`, `[<Type>] <Key>: `,
the text for the value, a line break. -/
def itemLine (F : TextFormat) (indent : Nat) (ty key text : String) : String :=
  F.indent (indent + 1) ++ "[" ++ ty ++ "] " ++ key ++ ": " ++ text ++ F.newLine

/-- The text `stringList` gives for the map `items` holds the item line of the
entity with type tag `ty` and key `key`, with the text `text` for its value. -/
def RendersItem (F : TextFormat) (ρ : RangeOrder) (items : EntityMap) (indent : Nat)
    (ty key text : String) : Prop :=
  ∃ before after : String,
    stringList F ρ items indent = before ++ itemLine F indent ty key text ++ after

/-- The character `y` occurs in the list somewhere after an occurrence of the
character `x`. -/
def hasAfter (x y : Char) : List Char → Bool
  | [] => false
  | c :: cs => (c == x && cs.contains y) || hasAfter x y cs

/-- The texts `parts` occur in `text` one after the other, in that order. -/
def OccurInOrder : List String → String → Prop
  | [], _ => True
  | p :: ps, text => ∃ before after : String, text = before ++ p ++ after ∧ OccurInOrder ps after

mutual
/-- The maps inside a value: the value itself when it is a map, the items of
the value when it is a descriptor, and the maps inside their entities. -/
def Value.maps : Value → List EntityMap
  | .map items => items :: itemsMaps items
  | .descriptor ⟨_, _, items⟩ => items :: itemsMaps items
  | _ => []
/-- The maps inside the values of the entities of a map. -/
def itemsMaps : List (EntityOf Value) → List EntityMap
  | [] => []
  | ⟨_, _, v⟩ :: rest => Value.maps v ++ itemsMaps rest
end

/-- The maps a descriptor is rendered from: its items and the maps inside
them. -/
def Descriptor.maps (d : Descriptor) : List EntityMap := d.Items :: itemsMaps d.Items

/-- A range order that visits maps of up to two entries in insertion order and
larger maps in reverse. -/
def smallFirstOrder : RangeOrder := fun items =>
  if items.length ≤ 2 then List.range items.length else (List.range items.length).reverse

/-! ## More encoded streams -/

/-- A descriptor with one item `L`, a list (`VlLs`) of the two entities `X`
and `Y`. -/
def listItemStream : List UInt8 :=
  be32 0 ++ (be32 0 ++ ascii "desc") ++ be32 1
    ++ (encodeKey (ascii "L") ++ ascii "VlLs" ++
      (be32 2 ++ encodeLong "X" 1 ++ encodeLong "Y" 2))

/-- The descriptor that `listItemStream` encodes. -/
def listItemDescriptor : Descriptor :=
  ⟨"", "desc", [⟨"L", "VlLs", .map [⟨"X", "long", .int32 1⟩, ⟨"Y", "long", .int32 2⟩]⟩]⟩

/-- A descriptor whose item `A` (at offset 16) is a list of count 2 (at offset
25) whose first entity `E` is an `alis` entity with the negative length field
-26, at offsets 38 to 41. -/
def negativeLengthStream : List UInt8 :=
  be32 0 ++ (be32 0 ++ ascii "desc") ++ be32 1
    ++ (encodeKey (ascii "A") ++ ascii "VlLs")
    ++ be32 2 ++ (encodeKey (ascii "E") ++ ascii "alis" ++ be32 (2 ^ 32 - 26))

/-- A descriptor whose items have the count -1. -/
def negativeCountStream : List UInt8 :=
  be32 0 ++ (be32 0 ++ ascii "desc") ++ be32 (2 ^ 32 - 1)

/-- A reference with three items: `Idnt`, `indx`, then a `Clss` item of class
`abcd`. -/
def identifierReferenceStream : List UInt8 :=
  be32 3 ++ ascii "Idnt" ++ ascii "indx" ++ (ascii "Clss" ++ be32 0 ++ (be32 0 ++ ascii "abcd"))

/-- The sixteen bytes of a rectangle with top 1, left 2, bottom 0x01020304 and
right -1, between a leading and a trailing byte. -/
def rectangleStream : List UInt8 :=
  [0xEE] ++ (be32 1 ++ be32 2 ++ [1, 2, 3, 4] ++ [0xFF, 0xFF, 0xFF, 0xFF] ++ [0xEE])


/-! ## Outcomes -/

theorem Res.bind_eq_ok {α β : Type} {x : Res α} {f : α → Reader → Res β} {v : β}
    {rd : Reader} :
    x.bind f = .ok v rd ↔ ∃ a r1, x = .ok a r1 ∧ f a r1 = .ok v rd := by
  cases x with
  | ok a r1 =>
    simp only [Res.bind, Res.ok.injEq]
    constructor
    · intro h
      exact ⟨a, r1, ⟨rfl, rfl⟩, h⟩
    · rintro ⟨b, r2, ⟨rfl, rfl⟩, h⟩
      exact h
  | error e => simp [Res.bind]
  | outOfFuel => simp [Res.bind]

theorem Res.bind_eq_error {α β : Type} {x : Res α} {f : α → Reader → Res β}
    {e : DecodeError} :
    x.bind f = .error e ↔ x = .error e ∨ ∃ a r1, x = .ok a r1 ∧ f a r1 = .error e := by
  cases x with
  | ok a r1 =>
    simp only [Res.bind, Res.ok.injEq]
    constructor
    · intro h
      exact Or.inr ⟨a, r1, ⟨rfl, rfl⟩, h⟩
    · rintro (h | ⟨b, r2, ⟨rfl, rfl⟩, h⟩)
      · exact Res.noConfusion h
      · exact h
  | error e => simp [Res.bind]
  | outOfFuel => simp [Res.bind]

theorem Res.map_eq_ok {α β : Type} {f : α → β} {x : Res α} {v : β} {rd : Reader} :
    x.map f = .ok v rd ↔ ∃ a, x = .ok a rd ∧ v = f a := by
  cases x with
  | ok a r1 =>
    simp only [Res.map, Res.ok.injEq]
    constructor
    · rintro ⟨h1, h2⟩
      exact ⟨a, ⟨rfl, h2⟩, h1.symm⟩
    · rintro ⟨b, ⟨h1, h2⟩, h3⟩
      exact ⟨by rw [h3, h1], h2⟩
  | error e => simp [Res.map]
  | outOfFuel => simp [Res.map]

theorem Res.map_eq_error {α β : Type} {f : α → β} {x : Res α} {e : DecodeError} :
    x.map f = .error e ↔ x = .error e := by
  cases x <;> simp [Res.map]

/-! ## The cursor after a read -/

theorem readBytes_position {r rd : Reader} {bs : List UInt8} {n : Int}
    (h : r.readBytes n = .ok bs rd) : rd.buf = r.buf ∧ rd.Position = r.Position + n := by
  simp only [Reader.readBytes] at h
  split at h
  · simp only [Res.ok.injEq] at h
    rw [← h.2]
    exact ⟨rfl, rfl⟩
  · exact Res.noConfusion h

theorem ReadString_position {r rd : Reader} {s : String} {n : Int}
    (h : r.ReadString n = .ok s rd) : rd.buf = r.buf ∧ rd.Position = r.Position + n := by
  simp only [Reader.ReadString, Res.map_eq_ok] at h
  obtain ⟨bs, h, -⟩ := h
  exact readBytes_position h

theorem ReadFloat64_position {r rd : Reader} {x : Nat}
    (h : r.ReadFloat64 = .ok x rd) : rd.buf = r.buf ∧ rd.Position = r.Position + 8 := by
  simp only [Reader.ReadFloat64, Res.map_eq_ok] at h
  obtain ⟨bs, h, -⟩ := h
  exact readBytes_position h

theorem Skip_position {r rd : Reader} {n : Int}
    (h : r.Skip n = .ok () rd) : rd.buf = r.buf ∧ rd.Position = r.Position + n := by
  simp only [Reader.Skip, Res.map_eq_ok] at h
  obtain ⟨bs, h, -⟩ := h
  exact readBytes_position h

/-! ## The decoding loop -/

theorem entityLoop_ok {body : Reader → Res DescriptorEntity} :
    ∀ (n : Nat) (value : EntityMap) (r : Reader) (m : EntityMap) (rd : Reader),
      entityLoop body n value r = .ok m rd →
      ∃ es, es.length = n ∧ DecodesSeq body r es rd ∧ m = es.foldl mapSet value := by
  intro n
  induction n with
  | zero =>
    intro value r m rd h
    simp only [entityLoop, Res.ok.injEq] at h
    exact ⟨[], rfl, h.2, by simp [h.1]⟩
  | succ n ih =>
    intro value r m rd h
    rw [entityLoop, Res.bind_eq_ok] at h
    obtain ⟨e, r1, hb, h⟩ := h
    obtain ⟨es, hlen, hseq, hm⟩ := ih _ _ _ _ h
    exact ⟨e :: es, by simp [hlen], ⟨r1, hb, hseq⟩, by simpa using hm⟩

theorem mem_mapSet {value : EntityMap} {e x : DescriptorEntity} :
    x ∈ mapSet value e → x = e ∨ x ∈ value := by
  induction value with
  | nil => simp [mapSet]
  | cons y ys ih =>
    simp only [mapSet]
    split
    · intro h
      rcases List.mem_cons.1 h with h | h
      · exact Or.inl h
      · exact Or.inr (List.mem_cons_of_mem _ h)
    · intro h
      rcases List.mem_cons.1 h with h | h
      · exact Or.inr (h ▸ List.mem_cons_self _ _)
      · rcases ih h with h | h
        · exact Or.inl h
        · exact Or.inr (List.mem_cons_of_mem _ h)

theorem mem_foldl_mapSet {es : List DescriptorEntity} :
    ∀ {value : EntityMap} {x : DescriptorEntity},
      x ∈ es.foldl mapSet value → x ∈ es ∨ x ∈ value := by
  induction es with
  | nil => intro value x h; exact Or.inr h
  | cons e es ih =>
    intro value x h
    rcases @ih (mapSet value e) x h with h | h
    · exact Or.inl (List.mem_cons_of_mem _ h)
    · rcases mem_mapSet h with h | h
      · exact Or.inl (h ▸ List.mem_cons_self _ _)
      · exact Or.inr h

theorem listEntity_ok {list : Reader → Res EntityMap} {r rd : Reader} {e : DescriptorEntity}
    (h : listEntity list r = .ok e rd) :
    ∃ r1 r2, r.ReadDynamicString = .ok e.Key r1 ∧ r1.ReadString 4 = .ok e.Type_ r2 ∧
      listValue list e.Type_ e.Key r2 = .ok e.Value rd := by
  simp only [listEntity, Res.bind_eq_ok, Res.map_eq_ok] at h
  obtain ⟨key, r1, h1, ty, r2, h2, v, hv, rfl⟩ := h
  exact ⟨r1, r2, h1, h2, hv⟩


/-! ## Truncation of the buffer -/

theorem stable_bind {α β : Type} {f : Reader → Res α} {g : α → Reader → Res β}
    (hf : Stable f) (hg : ∀ a, Stable (g a)) : Stable (fun r => (f r).bind g) := by
  intro s p v rd h
  simp only [Res.bind_eq_ok] at h
  obtain ⟨a, r1, h1, h2⟩ := h
  obtain ⟨hb1, hp1, hk1⟩ := hf s p a r1 h1
  obtain ⟨s1, p1⟩ := r1
  simp only at hb1 hp1 hk1
  subst hb1
  obtain ⟨hb2, hp2, hk2⟩ := hg a s1 p1 v rd h2
  refine ⟨hb2, fun hp => hp2 (hp1 hp), fun k => ?_⟩
  rcases hk1 k with h | h
  · rcases hk2 k with h' | h'
    · left; simp only [h, Res.bind]; exact h'
    · right; simp only [h, Res.bind]; exact h'
  · right; simp only [h, Res.bind]

theorem stable_map {α β : Type} {f : Reader → Res α} {g : α → β}
    (hf : Stable f) : Stable (fun r => (f r).map g) := by
  intro s p v rd h
  simp only [Res.map_eq_ok] at h
  obtain ⟨a, h1, rfl⟩ := h
  obtain ⟨hb1, hp1, hk1⟩ := hf s p a rd h1
  refine ⟨hb1, hp1, fun k => ?_⟩
  rcases hk1 k with h | h
  · left; simp only [h, Res.map]
  · right; simp only [h, Res.map]

theorem stable_pure {α : Type} (a : α) : Stable (fun r => Res.ok a r) := by
  intro s p v rd h
  simp only [Res.ok.injEq] at h
  obtain ⟨rfl, rfl⟩ := h
  exact ⟨rfl, fun hp => hp, fun k => Or.inl rfl⟩

theorem stable_error {α : Type} (e : DecodeError) :
    Stable (fun _ => (Res.error e : Res α)) := by
  intro s p v rd h
  exact Res.noConfusion h

theorem stable_outOfFuel {α : Type} : Stable (fun _ => (Res.outOfFuel : Res α)) := by
  intro s p v rd h
  exact Res.noConfusion h

theorem stable_ite {α : Type} {c : Prop} [Decidable c] {f g : Reader → Res α}
    (hf : Stable f) (hg : Stable g) : Stable (fun r => if c then f r else g r) := by
  by_cases h : c
  · simp only [h, if_true]; exact hf
  · simp only [h, if_false]; exact hg

theorem take_drop_take (s : List UInt8) (k p n : Nat) (h : p + n ≤ k) :
    ((s.take k).drop p).take n = (s.drop p).take n := by
  rw [List.drop_take, List.take_take]
  congr 1
  omega

theorem stable_readBytes (n : Int) : Stable (fun r => r.readBytes n) := by
  intro s p v rd h
  simp only [Reader.readBytes] at h
  split at h
  · rename_i hc
    obtain ⟨hn, hp, hle⟩ := hc
    simp only [Res.ok.injEq] at h
    obtain ⟨rfl, rfl⟩ := h
    refine ⟨rfl, fun _ => hle, fun k => ?_⟩
    simp only [Reader.readBytes]
    by_cases hk : p + n ≤ ((s.take k).length : Int)
    · left
      rw [if_pos ⟨hn, hp, hk⟩]
      simp only [Res.ok.injEq, and_true]
      apply take_drop_take
      simp only [List.length_take] at hk
      omega
    · right
      rw [if_neg (fun hc => hk hc.2.2)]
  · exact Res.noConfusion h

theorem stable_ReadByte : Stable Reader.ReadByte :=
  stable_map (stable_readBytes 1)

theorem stable_ReadInt32 : Stable Reader.ReadInt32 :=
  stable_map (stable_readBytes 4)

theorem stable_ReadFloat64 : Stable Reader.ReadFloat64 :=
  stable_map (stable_readBytes 8)

theorem stable_ReadString (n : Int) : Stable (fun r => r.ReadString n) :=
  stable_map (stable_readBytes n)

theorem stable_ReadUnicodeString : Stable Reader.ReadUnicodeString :=
  stable_bind stable_ReadInt32 (fun count => stable_map (stable_readBytes (2 * count)))

theorem stable_ReadDynamicString : Stable Reader.ReadDynamicString := by
  refine stable_bind stable_ReadInt32 (fun length => ?_)
  by_cases h : length = 0
  · simp only [h, if_true]; exact stable_ReadString 4
  · simp only [h, if_false]; exact stable_ReadString length

theorem stable_Skip (n : Int) : Stable (fun r => r.Skip n) :=
  stable_map (stable_readBytes n)

theorem stable_skipLength : Stable skipLength :=
  stable_bind stable_ReadInt32 (fun n => stable_Skip n)

theorem stable_newDescriptorUnitFloat : Stable newDescriptorUnitFloat :=
  stable_bind (stable_ReadString 4) fun ty =>
    stable_bind stable_ReadFloat64 fun v => stable_pure ⟨ty, v⟩

theorem stable_newDescriptorClass : Stable newDescriptorClass :=
  stable_bind stable_ReadUnicodeString fun name =>
    stable_bind stable_ReadDynamicString fun cls => stable_pure ⟨name, cls⟩

theorem stable_newDescriptorEnum : Stable newDescriptorEnum :=
  stable_bind stable_ReadDynamicString fun ty =>
    stable_bind stable_ReadDynamicString fun en => stable_pure ⟨ty, en⟩

theorem stable_newDescriptorProperty : Stable newDescriptorProperty :=
  stable_bind stable_ReadUnicodeString fun name =>
    stable_bind stable_ReadDynamicString fun cls =>
      stable_bind stable_ReadDynamicString fun key => stable_pure ⟨name, cls, key⟩

theorem stable_newDescriptorReferenceEnum : Stable newDescriptorReferenceEnum :=
  stable_bind stable_ReadUnicodeString fun name =>
    stable_bind stable_ReadDynamicString fun cls =>
      stable_bind stable_ReadDynamicString fun ty =>
        stable_bind stable_ReadDynamicString fun en => stable_pure ⟨name, cls, ty, en⟩

theorem stable_newDescriptorOffset : Stable newDescriptorOffset :=
  stable_bind stable_ReadUnicodeString fun name =>
    stable_bind stable_ReadDynamicString fun cls =>
      stable_bind stable_ReadInt32 fun v => stable_pure ⟨name, cls, v⟩

theorem stable_referenceValue (ty : String) : Stable (referenceValue ty) := by
  unfold Gopsd.referenceValue
  exact stable_ite (stable_map stable_newDescriptorProperty)
    (stable_ite (stable_map stable_newDescriptorClass)
    (stable_ite (stable_map stable_newDescriptorReferenceEnum)
    (stable_ite (stable_map stable_newDescriptorOffset)
    (stable_ite (stable_pure _) (stable_ite (stable_pure _) (stable_ite (stable_pure _)
    (stable_error _)))))))

theorem stable_referenceEntity : Stable referenceEntity :=
  stable_bind (stable_ReadString 4) fun ty => stable_map (stable_referenceValue ty)

theorem stable_entityLoop {body : Reader → Res DescriptorEntity} (hb : Stable body) :
    ∀ (n : Nat) (value : EntityMap), Stable (entityLoop body n value) := by
  intro n
  induction n with
  | zero => intro value; exact stable_pure value
  | succ n ih =>
    intro value
    exact stable_bind hb fun entity => ih (mapSet value entity)

theorem stable_newDescriptorReference : Stable newDescriptorReference :=
  stable_bind stable_ReadInt32 fun _ => stable_entityLoop stable_referenceEntity _ _

theorem stable_descriptorWith {list : Reader → Res EntityMap} (hl : Stable list) :
    Stable (descriptorWith list) :=
  stable_bind stable_ReadUnicodeString fun _ =>
    stable_bind stable_ReadDynamicString fun _ => stable_map hl

theorem stable_listValue {list : Reader → Res EntityMap} (hl : Stable list)
    (ty key : String) : Stable (listValue list ty key) := by
  unfold Gopsd.listValue
  exact stable_ite (stable_map stable_newDescriptorReference)
    (stable_ite (stable_map (stable_descriptorWith hl))
    (stable_ite (stable_map hl)
    (stable_ite (stable_map stable_ReadFloat64)
    (stable_ite (stable_map stable_newDescriptorUnitFloat)
    (stable_ite (stable_map stable_ReadUnicodeString)
    (stable_ite (stable_map stable_newDescriptorEnum)
    (stable_ite (stable_map stable_ReadInt32)
    (stable_ite (stable_map stable_ReadByte)
    (stable_ite (stable_map stable_newDescriptorClass)
    (stable_ite (stable_map stable_skipLength)
    (stable_ite (stable_map stable_skipLength)
    (stable_error _))))))))))))

theorem stable_listEntity {list : Reader → Res EntityMap} (hl : Stable list) :
    Stable (listEntity list) :=
  stable_bind stable_ReadDynamicString fun key =>
    stable_bind (stable_ReadString 4) fun ty => stable_map (stable_listValue hl ty key)

theorem stable_newDescriptorList : ∀ fuel : Nat, Stable (newDescriptorList fuel) := by
  intro fuel
  induction fuel with
  | zero => exact stable_outOfFuel
  | succ fuel ih =>
    exact stable_bind stable_ReadInt32 fun _ =>
      stable_entityLoop (stable_listEntity ih) _ _

theorem stable_NewDescriptor (fuel : Nat) : Stable (NewDescriptor fuel) :=
  stable_descriptorWith (stable_newDescriptorList fuel)


/-! ## More fuel -/

theorem extends_refl {α : Type} (f : Reader → Res α) : Extends f f :=
  fun _ _ => rfl

theorem extends_trans {α : Type} {f g h : Reader → Res α} (hfg : Extends f g)
    (hgh : Extends g h) : Extends f h := by
  intro r hr
  have h1 := hfg r hr
  rw [← h1] at hr
  rw [hgh r hr, h1]

theorem extends_bind {α β : Type} {f f' : Reader → Res α} {g g' : α → Reader → Res β}
    (hf : Extends f f') (hg : ∀ a, Extends (g a) (g' a)) :
    Extends (fun r => (f r).bind g) (fun r => (f' r).bind g') := by
  intro r hr
  simp only at hr ⊢
  cases h : f r with
  | ok a r1 =>
    rw [h] at hr
    rw [hf r (by rw [h]; exact fun hc => Res.noConfusion hc), h]
    exact hg a r1 hr
  | error e =>
    rw [hf r (by rw [h]; exact fun hc => Res.noConfusion hc), h]
    rfl
  | outOfFuel =>
    rw [h] at hr
    exact absurd rfl hr

theorem extends_map {α β : Type} {f f' : Reader → Res α} {g : α → β}
    (hf : Extends f f') : Extends (fun r => (f r).map g) (fun r => (f' r).map g) := by
  intro r hr
  simp only at hr ⊢
  cases h : f r with
  | ok a r1 => rw [hf r (by rw [h]; exact fun hc => Res.noConfusion hc), h]
  | error e => rw [hf r (by rw [h]; exact fun hc => Res.noConfusion hc), h]
  | outOfFuel =>
    rw [h] at hr
    exact absurd rfl hr

theorem extends_ite {α : Type} {c : Prop} [Decidable c] {f f' g g' : Reader → Res α}
    (hf : Extends f f') (hg : Extends g g') :
    Extends (fun r => if c then f r else g r) (fun r => if c then f' r else g' r) := by
  by_cases h : c
  · simp only [h, if_true]; exact hf
  · simp only [h, if_false]; exact hg

theorem extends_entityLoop {body body' : Reader → Res DescriptorEntity}
    (hb : Extends body body') :
    ∀ (n : Nat) (value : EntityMap),
      Extends (entityLoop body n value) (entityLoop body' n value) := by
  intro n
  induction n with
  | zero => intro value; exact extends_refl _
  | succ n ih =>
    intro value
    exact extends_bind hb fun entity => ih (mapSet value entity)

theorem extends_descriptorWith {list list' : Reader → Res EntityMap}
    (hl : Extends list list') : Extends (descriptorWith list) (descriptorWith list') :=
  extends_bind (extends_refl _) fun _ =>
    extends_bind (extends_refl _) fun _ => extends_map hl

theorem extends_listValue {list list' : Reader → Res EntityMap} (hl : Extends list list')
    (ty key : String) : Extends (listValue list ty key) (listValue list' ty key) := by
  unfold Gopsd.listValue
  exact extends_ite (extends_refl _)
    (extends_ite (extends_map (extends_descriptorWith hl))
    (extends_ite (extends_map hl) (extends_refl _)))

theorem extends_listEntity {list list' : Reader → Res EntityMap} (hl : Extends list list') :
    Extends (listEntity list) (listEntity list') :=
  extends_bind (extends_refl _) fun key =>
    extends_bind (extends_refl _) fun ty => extends_map (extends_listValue hl ty key)

theorem extends_newDescriptorList_succ :
    ∀ fuel : Nat, Extends (newDescriptorList fuel) (newDescriptorList (fuel + 1)) := by
  intro fuel
  induction fuel with
  | zero => intro r hr; exact absurd rfl hr
  | succ fuel ih =>
    exact extends_bind (extends_refl _) fun _ =>
      extends_entityLoop (extends_listEntity ih) _ _

theorem extends_newDescriptorList {fuel fuel' : Nat} (h : fuel ≤ fuel') :
    Extends (newDescriptorList fuel) (newDescriptorList fuel') := by
  induction h with
  | refl => exact extends_refl _
  | step _ ih => exact extends_trans ih (extends_newDescriptorList_succ _)

theorem extends_NewDescriptor {fuel fuel' : Nat} (h : fuel ≤ fuel') :
    Extends (NewDescriptor fuel) (NewDescriptor fuel') :=
  extends_descriptorWith (extends_newDescriptorList h)

/-! ## The entities of a decoded list -/

theorem decodesSeq_mem {body : Reader → Res DescriptorEntity} (hb : Stable body) :
    ∀ (es : List DescriptorEntity) (r rd : Reader), DecodesSeq body r es rd →
      rd.buf = r.buf ∧ ∀ e ∈ es, ∃ r0 r1, r0.buf = r.buf ∧ body r0 = .ok e r1 := by
  intro es
  induction es with
  | nil =>
    intro r rd h
    simp only [DecodesSeq] at h
    subst h
    exact ⟨rfl, fun e he => absurd he (List.not_mem_nil e)⟩
  | cons x xs ih =>
    intro r rd h
    obtain ⟨r1, hx, hrest⟩ := h
    have hbuf : r1.buf = r.buf := (hb r.buf r.Position x r1 hx).1
    obtain ⟨h1, h2⟩ := ih r1 rd hrest
    refine ⟨h1.trans hbuf, fun e he => ?_⟩
    rcases List.mem_cons.1 he with rfl | he
    · exact ⟨r, r1, rfl, hx⟩
    · obtain ⟨r0, r2, hr0, hbody⟩ := h2 e he
      exact ⟨r0, r2, hr0.trans hbuf, hbody⟩


/-! ## The cursor moves forward -/

theorem forward_bind {α β : Type} {f : Reader → Res α} {g : α → Reader → Res β}
    (hf : Forward f) (hg : ∀ a, Forward (g a)) : Forward (fun r => (f r).bind g) := by
  intro r v rd h
  simp only [Res.bind_eq_ok] at h
  obtain ⟨a, r1, h1, h2⟩ := h
  obtain ⟨hb1, hp1⟩ := hf r a r1 h1
  obtain ⟨hb2, hp2⟩ := hg a r1 v rd h2
  exact ⟨hb2.trans hb1, le_trans hp1 hp2⟩

theorem forward_map {α β : Type} {f : Reader → Res α} {g : α → β}
    (hf : Forward f) : Forward (fun r => (f r).map g) := by
  intro r v rd h
  simp only [Res.map_eq_ok] at h
  obtain ⟨a, h1, -⟩ := h
  exact hf r a rd h1

theorem forward_pure {α : Type} (a : α) : Forward (fun r => Res.ok a r) := by
  intro r v rd h
  simp only [Res.ok.injEq] at h
  rw [← h.2]
  exact ⟨rfl, le_refl _⟩

theorem forward_error {α : Type} (e : DecodeError) :
    Forward (fun _ => (Res.error e : Res α)) :=
  fun _ _ _ h => Res.noConfusion h

theorem forward_outOfFuel {α : Type} : Forward (fun _ => (Res.outOfFuel : Res α)) :=
  fun _ _ _ h => Res.noConfusion h

theorem forward_ite {α : Type} {c : Prop} [Decidable c] {f g : Reader → Res α}
    (hf : Forward f) (hg : Forward g) : Forward (fun r => if c then f r else g r) := by
  by_cases h : c
  · simp only [h, if_true]; exact hf
  · simp only [h, if_false]; exact hg

theorem forward_readBytes (n : Int) : Forward (fun r => r.readBytes n) := by
  intro r v rd h
  have hpos := readBytes_position h
  simp only [Reader.readBytes] at h
  split at h
  · rename_i hc
    exact ⟨hpos.1, by rw [hpos.2]; omega⟩
  · exact Res.noConfusion h

theorem forward_ReadByte : Forward Reader.ReadByte :=
  forward_map (forward_readBytes 1)

theorem forward_ReadInt32 : Forward Reader.ReadInt32 :=
  forward_map (forward_readBytes 4)

theorem forward_ReadFloat64 : Forward Reader.ReadFloat64 :=
  forward_map (forward_readBytes 8)

theorem forward_ReadString (n : Int) : Forward (fun r => r.ReadString n) :=
  forward_map (forward_readBytes n)

theorem forward_ReadUnicodeString : Forward Reader.ReadUnicodeString :=
  forward_bind forward_ReadInt32 (fun count => forward_map (forward_readBytes (2 * count)))

theorem forward_ReadDynamicString : Forward Reader.ReadDynamicString :=
  forward_bind forward_ReadInt32 (fun length =>
    forward_ite (forward_ReadString 4) (forward_ReadString length))

theorem forward_Skip (n : Int) : Forward (fun r => r.Skip n) :=
  forward_map (forward_readBytes n)

theorem forward_skipLength : Forward skipLength :=
  forward_bind forward_ReadInt32 (fun n => forward_Skip n)

theorem forward_newDescriptorUnitFloat : Forward newDescriptorUnitFloat :=
  forward_bind (forward_ReadString 4) fun ty =>
    forward_bind forward_ReadFloat64 fun v => forward_pure ⟨ty, v⟩

theorem forward_newDescriptorClass : Forward newDescriptorClass :=
  forward_bind forward_ReadUnicodeString fun name =>
    forward_bind forward_ReadDynamicString fun cls => forward_pure ⟨name, cls⟩

theorem forward_newDescriptorEnum : Forward newDescriptorEnum :=
  forward_bind forward_ReadDynamicString fun ty =>
    forward_bind forward_ReadDynamicString fun en => forward_pure ⟨ty, en⟩

theorem forward_newDescriptorProperty : Forward newDescriptorProperty :=
  forward_bind forward_ReadUnicodeString fun name =>
    forward_bind forward_ReadDynamicString fun cls =>
      forward_bind forward_ReadDynamicString fun key => forward_pure ⟨name, cls, key⟩

theorem forward_newDescriptorReferenceEnum : Forward newDescriptorReferenceEnum :=
  forward_bind forward_ReadUnicodeString fun name =>
    forward_bind forward_ReadDynamicString fun cls =>
      forward_bind forward_ReadDynamicString fun ty =>
        forward_bind forward_ReadDynamicString fun en => forward_pure ⟨name, cls, ty, en⟩

theorem forward_newDescriptorOffset : Forward newDescriptorOffset :=
  forward_bind forward_ReadUnicodeString fun name =>
    forward_bind forward_ReadDynamicString fun cls =>
      forward_bind forward_ReadInt32 fun v => forward_pure ⟨name, cls, v⟩

theorem forward_referenceValue (ty : String) : Forward (referenceValue ty) := by
  unfold Gopsd.referenceValue
  exact forward_ite (forward_map forward_newDescriptorProperty)
    (forward_ite (forward_map forward_newDescriptorClass)
    (forward_ite (forward_map forward_newDescriptorReferenceEnum)
    (forward_ite (forward_map forward_newDescriptorOffset)
    (forward_ite (forward_pure _) (forward_ite (forward_pure _) (forward_ite (forward_pure _)
    (forward_error _)))))))

theorem forward_referenceEntity : Forward referenceEntity :=
  forward_bind (forward_ReadString 4) fun ty => forward_map (forward_referenceValue ty)

theorem forward_entityLoop {body : Reader → Res DescriptorEntity} (hb : Forward body) :
    ∀ (n : Nat) (value : EntityMap), Forward (entityLoop body n value) := by
  intro n
  induction n with
  | zero => intro value; exact forward_pure value
  | succ n ih =>
    intro value
    exact forward_bind hb fun entity => ih (mapSet value entity)

theorem forward_newDescriptorReference : Forward newDescriptorReference :=
  forward_bind forward_ReadInt32 fun _ => forward_entityLoop forward_referenceEntity _ _

theorem forward_descriptorWith {list : Reader → Res EntityMap} (hl : Forward list) :
    Forward (descriptorWith list) :=
  forward_bind forward_ReadUnicodeString fun _ =>
    forward_bind forward_ReadDynamicString fun _ => forward_map hl

theorem forward_listValue {list : Reader → Res EntityMap} (hl : Forward list)
    (ty key : String) : Forward (listValue list ty key) := by
  unfold Gopsd.listValue
  exact forward_ite (forward_map forward_newDescriptorReference)
    (forward_ite (forward_map (forward_descriptorWith hl))
    (forward_ite (forward_map hl)
    (forward_ite (forward_map forward_ReadFloat64)
    (forward_ite (forward_map forward_newDescriptorUnitFloat)
    (forward_ite (forward_map forward_ReadUnicodeString)
    (forward_ite (forward_map forward_newDescriptorEnum)
    (forward_ite (forward_map forward_ReadInt32)
    (forward_ite (forward_map forward_ReadByte)
    (forward_ite (forward_map forward_newDescriptorClass)
    (forward_ite (forward_map forward_skipLength)
    (forward_ite (forward_map forward_skipLength)
    (forward_error _))))))))))))

theorem forward_listEntity {list : Reader → Res EntityMap} (hl : Forward list) :
    Forward (listEntity list) :=
  forward_bind forward_ReadDynamicString fun key =>
    forward_bind (forward_ReadString 4) fun ty => forward_map (forward_listValue hl ty key)

theorem forward_newDescriptorList : ∀ fuel : Nat, Forward (newDescriptorList fuel) := by
  intro fuel
  induction fuel with
  | zero => exact forward_outOfFuel
  | succ fuel ih =>
    exact forward_bind forward_ReadInt32 fun _ =>
      forward_entityLoop (forward_listEntity ih) _ _

theorem forward_NewDescriptor (fuel : Nat) : Forward (NewDescriptor fuel) :=
  forward_descriptorWith (forward_newDescriptorList fuel)

/-! ## Enough fuel -/

theorem remaining_le_of_forward {r rd : Reader} (hbuf : rd.buf = r.buf)
    (hpos : r.Position ≤ rd.Position) : rd.remaining ≤ r.remaining := by
  simp only [Reader.remaining, hbuf]
  omega

theorem terminates_bind {α β : Type} {N : Nat} {f : Reader → Res α}
    {g : α → Reader → Res β} (hfw : Forward f) (hf : Terminates N f)
    (hg : ∀ a, Terminates N (g a)) : Terminates N (fun r => (f r).bind g) := by
  intro r hr
  simp only
  cases h : f r with
  | ok a r1 =>
    obtain ⟨hb, hp⟩ := hfw r a r1 h
    exact hg a r1 (lt_of_le_of_lt (remaining_le_of_forward hb hp) hr)
  | error e => exact fun hc => Res.noConfusion hc
  | outOfFuel => exact absurd h (hf r hr)

theorem terminates_map {α β : Type} {N : Nat} {f : Reader → Res α} {g : α → β}
    (hf : Terminates N f) : Terminates N (fun r => (f r).map g) := by
  intro r hr
  simp only
  cases h : f r with
  | ok a r1 => exact fun hc => Res.noConfusion hc
  | error e => exact fun hc => Res.noConfusion hc
  | outOfFuel => exact absurd h (hf r hr)

theorem terminates_pure {α : Type} (N : Nat) (a : α) : Terminates N (fun r => Res.ok a r) :=
  fun _ _ hc => Res.noConfusion hc

theorem terminates_error {α : Type} (N : Nat) (e : DecodeError) :
    Terminates N (fun _ => (Res.error e : Res α)) :=
  fun _ _ hc => Res.noConfusion hc

theorem terminates_ite {α : Type} {N : Nat} {c : Prop} [Decidable c]
    {f g : Reader → Res α} (hf : Terminates N f) (hg : Terminates N g) :
    Terminates N (fun r => if c then f r else g r) := by
  by_cases h : c
  · simp only [h, if_true]; exact hf
  · simp only [h, if_false]; exact hg

theorem terminates_readBytes (N : Nat) (n : Int) : Terminates N (fun r => r.readBytes n) := by
  intro r _
  simp only [Reader.readBytes]
  split <;> exact fun hc => Res.noConfusion hc

theorem terminates_ReadByte (N : Nat) : Terminates N Reader.ReadByte :=
  terminates_map (terminates_readBytes N 1)

theorem terminates_ReadInt32 (N : Nat) : Terminates N Reader.ReadInt32 :=
  terminates_map (terminates_readBytes N 4)

theorem terminates_ReadFloat64 (N : Nat) : Terminates N Reader.ReadFloat64 :=
  terminates_map (terminates_readBytes N 8)

theorem terminates_ReadString (N : Nat) (n : Int) : Terminates N (fun r => r.ReadString n) :=
  terminates_map (terminates_readBytes N n)

theorem terminates_ReadUnicodeString (N : Nat) : Terminates N Reader.ReadUnicodeString :=
  terminates_bind forward_ReadInt32 (terminates_ReadInt32 N)
    (fun count => terminates_map (terminates_readBytes N (2 * count)))

theorem terminates_ReadDynamicString (N : Nat) : Terminates N Reader.ReadDynamicString :=
  terminates_bind forward_ReadInt32 (terminates_ReadInt32 N) (fun length =>
    terminates_ite (terminates_ReadString N 4) (terminates_ReadString N length))

theorem terminates_Skip (N : Nat) (n : Int) : Terminates N (fun r => r.Skip n) :=
  terminates_map (terminates_readBytes N n)

theorem terminates_skipLength (N : Nat) : Terminates N skipLength :=
  terminates_bind forward_ReadInt32 (terminates_ReadInt32 N) (fun n => terminates_Skip N n)

theorem terminates_newDescriptorUnitFloat (N : Nat) : Terminates N newDescriptorUnitFloat :=
  terminates_bind (forward_ReadString 4) (terminates_ReadString N 4) fun ty =>
    terminates_bind forward_ReadFloat64 (terminates_ReadFloat64 N) fun v =>
      terminates_pure N ⟨ty, v⟩

theorem terminates_newDescriptorClass (N : Nat) : Terminates N newDescriptorClass :=
  terminates_bind forward_ReadUnicodeString (terminates_ReadUnicodeString N) fun name =>
    terminates_bind forward_ReadDynamicString (terminates_ReadDynamicString N) fun cls =>
      terminates_pure N ⟨name, cls⟩

theorem terminates_newDescriptorEnum (N : Nat) : Terminates N newDescriptorEnum :=
  terminates_bind forward_ReadDynamicString (terminates_ReadDynamicString N) fun ty =>
    terminates_bind forward_ReadDynamicString (terminates_ReadDynamicString N) fun en =>
      terminates_pure N ⟨ty, en⟩

theorem terminates_newDescriptorProperty (N : Nat) : Terminates N newDescriptorProperty :=
  terminates_bind forward_ReadUnicodeString (terminates_ReadUnicodeString N) fun name =>
    terminates_bind forward_ReadDynamicString (terminates_ReadDynamicString N) fun cls =>
      terminates_bind forward_ReadDynamicString (terminates_ReadDynamicString N) fun key =>
        terminates_pure N ⟨name, cls, key⟩

theorem terminates_newDescriptorReferenceEnum (N : Nat) :
    Terminates N newDescriptorReferenceEnum :=
  terminates_bind forward_ReadUnicodeString (terminates_ReadUnicodeString N) fun name =>
    terminates_bind forward_ReadDynamicString (terminates_ReadDynamicString N) fun cls =>
      terminates_bind forward_ReadDynamicString (terminates_ReadDynamicString N) fun ty =>
        terminates_bind forward_ReadDynamicString (terminates_ReadDynamicString N) fun en =>
          terminates_pure N ⟨name, cls, ty, en⟩

theorem terminates_newDescriptorOffset (N : Nat) : Terminates N newDescriptorOffset :=
  terminates_bind forward_ReadUnicodeString (terminates_ReadUnicodeString N) fun name =>
    terminates_bind forward_ReadDynamicString (terminates_ReadDynamicString N) fun cls =>
      terminates_bind forward_ReadInt32 (terminates_ReadInt32 N) fun v =>
        terminates_pure N ⟨name, cls, v⟩

theorem terminates_referenceValue (N : Nat) (ty : String) :
    Terminates N (referenceValue ty) := by
  unfold Gopsd.referenceValue
  exact terminates_ite (terminates_map (terminates_newDescriptorProperty N))
    (terminates_ite (terminates_map (terminates_newDescriptorClass N))
    (terminates_ite (terminates_map (terminates_newDescriptorReferenceEnum N))
    (terminates_ite (terminates_map (terminates_newDescriptorOffset N))
    (terminates_ite (terminates_pure N _) (terminates_ite (terminates_pure N _)
    (terminates_ite (terminates_pure N _) (terminates_error N _)))))))

theorem terminates_referenceEntity (N : Nat) : Terminates N referenceEntity :=
  terminates_bind (forward_ReadString 4) (terminates_ReadString N 4) fun ty =>
    terminates_map (terminates_referenceValue N ty)

theorem terminates_entityLoop {N : Nat} {body : Reader → Res DescriptorEntity}
    (hfw : Forward body) (hb : Terminates N body) :
    ∀ (n : Nat) (value : EntityMap), Terminates N (entityLoop body n value) := by
  intro n
  induction n with
  | zero => intro value; exact terminates_pure N value
  | succ n ih =>
    intro value
    exact terminates_bind hfw hb fun entity => ih (mapSet value entity)

theorem terminates_newDescriptorReference (N : Nat) : Terminates N newDescriptorReference :=
  terminates_bind forward_ReadInt32 (terminates_ReadInt32 N) fun _ =>
    terminates_entityLoop forward_referenceEntity (terminates_referenceEntity N) _ _

theorem terminates_descriptorWith {N : Nat} {list : Reader → Res EntityMap}
    (hl : Terminates N list) : Terminates N (descriptorWith list) :=
  terminates_bind forward_ReadUnicodeString (terminates_ReadUnicodeString N) fun _ =>
    terminates_bind forward_ReadDynamicString (terminates_ReadDynamicString N) fun _ =>
      terminates_map hl

theorem terminates_listValue {N : Nat} {list : Reader → Res EntityMap}
    (hl : Terminates N list) (ty key : String) : Terminates N (listValue list ty key) := by
  unfold Gopsd.listValue
  exact terminates_ite (terminates_map (terminates_newDescriptorReference N))
    (terminates_ite (terminates_map (terminates_descriptorWith hl))
    (terminates_ite (terminates_map hl)
    (terminates_ite (terminates_map (terminates_ReadFloat64 N))
    (terminates_ite (terminates_map (terminates_newDescriptorUnitFloat N))
    (terminates_ite (terminates_map (terminates_ReadUnicodeString N))
    (terminates_ite (terminates_map (terminates_newDescriptorEnum N))
    (terminates_ite (terminates_map (terminates_ReadInt32 N))
    (terminates_ite (terminates_map (terminates_ReadByte N))
    (terminates_ite (terminates_map (terminates_newDescriptorClass N))
    (terminates_ite (terminates_map (terminates_skipLength N))
    (terminates_ite (terminates_map (terminates_skipLength N))
    (terminates_error N _))))))))))))

theorem terminates_listEntity {N : Nat} {list : Reader → Res EntityMap}
    (hl : Terminates N list) : Terminates N (listEntity list) :=
  terminates_bind forward_ReadDynamicString (terminates_ReadDynamicString N) fun key =>
    terminates_bind (forward_ReadString 4) (terminates_ReadString N 4) fun ty =>
      terminates_map (terminates_listValue hl ty key)

theorem ReadInt32_remaining {r r1 : Reader} {count : Int}
    (h : r.ReadInt32 = .ok count r1) : r1.remaining + 4 ≤ r.remaining := by
  simp only [Reader.ReadInt32, Res.map_eq_ok] at h
  obtain ⟨bs, h, -⟩ := h
  obtain ⟨hb, hp⟩ := readBytes_position h
  simp only [Reader.readBytes] at h
  split at h
  · rename_i hc
    simp only [Reader.remaining, hb, hp]
    omega
  · exact Res.noConfusion h

theorem terminates_newDescriptorList :
    ∀ fuel : Nat, Terminates fuel (newDescriptorList fuel) := by
  intro fuel
  induction fuel with
  | zero => intro r hr; exact absurd hr (Nat.not_lt_zero _)
  | succ fuel ih =>
    intro r hr
    rw [newDescriptorList]
    cases h : r.ReadInt32 with
    | ok count r1 =>
      have hrem := ReadInt32_remaining h
      exact terminates_entityLoop (forward_listEntity (forward_newDescriptorList fuel))
        (terminates_listEntity ih) count.toNat [] r1 (by omega)
    | error e => exact fun hc => Res.noConfusion hc
    | outOfFuel =>
      exact absurd h (terminates_ReadInt32 (r.remaining + 1) r (Nat.lt_succ_self _))

theorem terminates_NewDescriptor (fuel : Nat) : Terminates fuel (NewDescriptor fuel) :=
  terminates_descriptorWith (terminates_newDescriptorList fuel)

/-! ## C1: the value of an entity agrees with its type tag -/

/-- C1. When `newDescriptorList` succeeds, every entity of the returned
collection was read at some cursor of the same stream as a key, a 4-byte type
tag, and then the value the `switch` selects for that tag, read right after
the tag: `obj ` a reference collection, `Objc`/`GlbO` a nested descriptor,
`VlLs` a nested entity list, `doub` a 64-bit float, `UntF` a unit float,
`TEXT` a string, `enum` an enum, `long` a 32-bit integer, `bool` a boolean,
`type`/`GlbC` a class. -/
theorem newDescriptorList_value_of_type (fuel : Nat) (reader rd : Reader)
    (value : EntityMap) (h : newDescriptorList (fuel + 1) reader = .ok value rd) :
    ∀ entity ∈ value, ∃ r0 r1 r2 r3 : Reader, r0.buf = reader.buf ∧
      r0.ReadDynamicString = .ok entity.Key r1 ∧
      r1.ReadString 4 = .ok entity.Type_ r2 ∧ ValueOfType fuel entity r2 r3 := by
  intro entity hmem
  rw [newDescriptorList, Res.bind_eq_ok] at h
  obtain ⟨count, rc, hcount, hloop⟩ := h
  obtain ⟨es, -, hseq, hm⟩ := entityLoop_ok _ _ _ _ _ hloop
  have hes : entity ∈ es := by
    rw [hm] at hmem
    rcases mem_foldl_mapSet hmem with h | h
    · exact h
    · exact absurd h (List.not_mem_nil _)
  have hrc : rc.buf = reader.buf := (stable_ReadInt32 reader.buf reader.Position count rc hcount).1
  obtain ⟨r0, r3, hr0, hbody⟩ :=
    (decodesSeq_mem (stable_listEntity (stable_newDescriptorList fuel)) es rc rd hseq).2 entity hes
  obtain ⟨r1, r2, hkey, hty, hv⟩ := listEntity_ok hbody
  refine ⟨r0, r1, r2, r3, hr0.trans hrc, hkey, hty, ?_, ?_, ?_, ?_, ?_, ?_, ?_, ?_, ?_, ?_⟩
  · intro ht
    rw [ht] at hv
    simpa [listValue, Res.map_eq_ok] using hv
  · intro ht
    rcases ht with ht | ht <;>
    · rw [ht] at hv
      simpa [listValue, Res.map_eq_ok, NewDescriptor] using hv
  · intro ht
    rw [ht] at hv
    simpa [listValue, Res.map_eq_ok] using hv
  · intro ht
    rw [ht] at hv
    simpa [listValue, Res.map_eq_ok] using hv
  · intro ht
    rw [ht] at hv
    simpa [listValue, Res.map_eq_ok] using hv
  · intro ht
    rw [ht] at hv
    simpa [listValue, Res.map_eq_ok] using hv
  · intro ht
    rw [ht] at hv
    simpa [listValue, Res.map_eq_ok] using hv
  · intro ht
    rw [ht] at hv
    simpa [listValue, Res.map_eq_ok] using hv
  · intro ht
    rw [ht] at hv
    simpa [listValue, Res.map_eq_ok] using hv
  · intro ht
    rcases ht with ht | ht <;>
    · rw [ht] at hv
      simpa [listValue, Res.map_eq_ok] using hv


theorem newDescriptorList_value_of_type_witness :
    newDescriptorList 1 ⟨longBoolStream, 0⟩ =
        .ok [⟨"A", "long", .int32 42⟩, ⟨"B", "bool", .bool true⟩] ⟨longBoolStream, 27⟩ ∧
      ∀ entity ∈ ([⟨"A", "long", .int32 42⟩, ⟨"B", "bool", .bool true⟩] : EntityMap),
        ∃ r0 r1 r2 r3 : Reader, r0.buf = longBoolStream ∧
          r0.ReadDynamicString = .ok entity.Key r1 ∧
          r1.ReadString 4 = .ok entity.Type_ r2 ∧ ValueOfType 0 entity r2 r3 :=
  ⟨rfl, newDescriptorList_value_of_type 0 ⟨longBoolStream, 0⟩ ⟨longBoolStream, 27⟩ _ rfl⟩

/-! ## C2: truncated streams -/

/-- C2. If `NewDescriptor` succeeds on the stream `s`, ending at cursor
position `n`, then on the first `k` bytes of `s`, for every `k < n`, it fails
with the end-of-stream condition (with the same or more fuel), and with no
amount of fuel does it return a descriptor. -/
theorem NewDescriptor_truncated (fuel : Nat) (s : List UInt8) (d : Descriptor)
    (rd : Reader) (k : Nat) (h : NewDescriptor fuel ⟨s, 0⟩ = .ok d rd)
    (hk : (k : Int) < rd.Position) :
    (∀ fuel', fuel ≤ fuel' →
      NewDescriptor fuel' ⟨s.take k, 0⟩ = .error .endOfStream) ∧
    ∀ fuel' d' rd', NewDescriptor fuel' ⟨s.take k, 0⟩ ≠ .ok d' rd' := by
  have hshort : ∀ f d' rd', NewDescriptor f ⟨s.take k, 0⟩ = .ok d' rd' →
      rd'.Position ≤ k := by
    intro f d' rd' h'
    have h1 := (stable_NewDescriptor f (s.take k) 0 d' rd' h').2.1
      (Int.ofNat_nonneg _)
    have h2 : ((s.take k).length : Int) ≤ k := by
      simp only [List.length_take]
      omega
    omega
  have hsame : NewDescriptor fuel ⟨s.take k, 0⟩ = .error .endOfStream := by
    rcases (stable_NewDescriptor fuel s 0 d rd h).2.2 k with h' | h'
    · have := hshort fuel d _ h'
      simp only at this
      omega
    · exact h'
  have hmore : ∀ fuel', fuel ≤ fuel' →
      NewDescriptor fuel' ⟨s.take k, 0⟩ = .error .endOfStream := by
    intro fuel' hle
    rw [extends_NewDescriptor hle _ (by rw [hsame]; exact fun hc => Res.noConfusion hc)]
    exact hsame
  refine ⟨hmore, fun fuel' d' rd' h' => ?_⟩
  have hne : NewDescriptor fuel' ⟨s.take k, 0⟩ ≠ .outOfFuel := by
    rw [h']; exact fun hc => Res.noConfusion hc
  have h1 := extends_NewDescriptor (Nat.le_max_left fuel' fuel) _ hne
  rw [hmore _ (Nat.le_max_right fuel' fuel), h'] at h1
  exact Res.noConfusion h1


theorem NewDescriptor_truncated_witness :
    NewDescriptor 1 ⟨abcStream, 0⟩ =
        .ok ⟨"", "desc", [⟨"A", "long", .int32 1⟩, ⟨"B", "long", .int32 2⟩,
          ⟨"C", "long", .int32 3⟩]⟩ ⟨abcStream, 55⟩ ∧
      (∀ fuel', 1 ≤ fuel' →
        NewDescriptor fuel' ⟨abcStream.take 54, 0⟩ = .error .endOfStream) ∧
      ∀ fuel' d' rd', NewDescriptor fuel' ⟨abcStream.take 54, 0⟩ ≠ .ok d' rd' :=
  ⟨rfl, NewDescriptor_truncated 1 abcStream _ ⟨abcStream, 55⟩ 54 rfl (by decide)⟩

/-! ## C3: unknown type tags -/

theorem entityLoop_add {body : Reader → Res DescriptorEntity} :
    ∀ (k j : Nat) (value : EntityMap) (r : Reader),
      entityLoop body (k + j) value r =
        (entityLoop body k value r).bind fun v r1 => entityLoop body j v r1 := by
  intro k
  induction k with
  | zero =>
    intro j value r
    simp only [Nat.zero_add, entityLoop, Res.bind]
  | succ k ih =>
    intro j value r
    rw [Nat.add_right_comm, entityLoop, entityLoop]
    cases hb : body r with
    | ok e r1 => simp only [Res.bind]; exact ih j _ r1
    | error e => rfl
    | outOfFuel => rfl

theorem entityLoop_error_at {body : Reader → Res DescriptorEntity} {k n : Nat}
    {value : EntityMap} {r rk : Reader} {e : DecodeError} (hk : k < n)
    (hprev : entityLoop body k [] r = .ok value rk) (hbody : body rk = .error e) :
    entityLoop body n [] r = .error e := by
  obtain ⟨j, rfl⟩ : ∃ j, n = k + (j + 1) := ⟨n - k - 1, by omega⟩
  rw [entityLoop_add, hprev]
  simp only [Res.bind, entityLoop, hbody]

/-- C3. If `newDescriptorList` has read the count and decoded the first `k`
entities, `k` less than the count, and the next entity has key `key` and a
4-byte type tag `ty` that is none of the fourteen tags of the `switch`, then
the decode aborts with the panic whose message names exactly `ty` and `key`;
no collection is returned. -/
theorem newDescriptorList_unknown_tag (fuel : Nat) (reader r1 rk r2 r3 : Reader)
    (count : Int) (k : Nat) (value : EntityMap) (key ty : String)
    (hcount : reader.ReadInt32 = .ok count r1) (hk : (k : Int) < count)
    (hprev : entityLoop (listEntity (newDescriptorList fuel)) k [] r1 = .ok value rk)
    (hkey : rk.ReadDynamicString = .ok key r2) (hty : r2.ReadString 4 = .ok ty r3)
    (hunknown : ty ∉ listTags) :
    newDescriptorList (fuel + 1) reader =
      .error (.panicked ("Unknown OSType key [" ++ ty ++ "] in entity [" ++ key ++ "]")) := by
  have hbody : listEntity (newDescriptorList fuel) rk =
      .error (.panicked (unknownOSType ty key)) := by
    simp only [listTags, List.mem_cons, List.mem_singleton, List.not_mem_nil, not_or,
      or_false] at hunknown
    obtain ⟨h1, h2, h3, h4, h5, h6, h7, h8, h9, h10, h11, h12, h13, h14⟩ := hunknown
    simp only [listEntity, hkey, hty, Res.bind, listValue, h1, h2, h3, h4, h5, h6, h7, h8,
      h9, h10, h11, h12, h13, h14, if_false, or_self, Res.map]
  rw [newDescriptorList, hcount]
  simp only [Res.bind]
  exact entityLoop_error_at (by omega) hprev hbody


theorem newDescriptorList_unknown_tag_witness :
    "zzzz" ∉ listTags ∧
      newDescriptorList 1 ⟨unknownTagStream, 0⟩ =
        .error (.panicked "Unknown OSType key [zzzz] in entity [B]") :=
  ⟨by decide,
    newDescriptorList_unknown_tag 0 ⟨unknownTagStream, 0⟩ ⟨unknownTagStream, 4⟩
      ⟨unknownTagStream, 17⟩ ⟨unknownTagStream, 22⟩ ⟨unknownTagStream, 26⟩ 2 1
      [⟨"A", "long", .int32 42⟩] "B" "zzzz" rfl (by decide) rfl rfl rfl (by decide)⟩

/-! ## C4: one entity per key -/

theorem mapSet_of_key_not_mem {value : EntityMap} {e : DescriptorEntity}
    (h : e.Key ∉ value.map (fun x => x.Key)) : mapSet value e = value ++ [e] := by
  induction value with
  | nil => rfl
  | cons x xs ih =>
    simp only [List.map_cons, List.mem_cons, not_or] at h
    simp only [mapSet, if_neg (Ne.symm h.1), ih h.2, List.cons_append]

theorem keys_mapSet_of_key_mem {value : EntityMap} {e : DescriptorEntity}
    (h : e.Key ∈ value.map (fun x => x.Key)) :
    (mapSet value e).map (fun x => x.Key) = value.map (fun x => x.Key) := by
  induction value with
  | nil => exact absurd h (List.not_mem_nil _)
  | cons x xs ih =>
    simp only [mapSet]
    by_cases hx : x.Key = e.Key
    · rw [if_pos hx, List.map_cons, List.map_cons, hx]
    · rw [if_neg hx, List.map_cons, List.map_cons]
      simp only [List.map_cons, List.mem_cons] at h
      rcases h with h | h
      · exact absurd h.symm hx
      · rw [ih h]

theorem keys_mapSet_nodup {value : EntityMap} {e : DescriptorEntity}
    (h : (value.map (fun x => x.Key)).Nodup) :
    ((mapSet value e).map (fun x => x.Key)).Nodup := by
  by_cases he : e.Key ∈ value.map (fun x => x.Key)
  · rw [keys_mapSet_of_key_mem he]; exact h
  · rw [mapSet_of_key_not_mem he, List.map_append]
    refine List.Nodup.append h (List.nodup_singleton _) ?_
    intro a ha hb
    simp only [List.map_cons, List.map_nil, List.mem_singleton] at hb
    exact he (hb ▸ ha)

theorem mem_keys_mapSet {value : EntityMap} {e : DescriptorEntity} {key : String} :
    key ∈ (mapSet value e).map (fun x => x.Key) ↔
      key ∈ value.map (fun x => x.Key) ∨ key = e.Key := by
  by_cases he : e.Key ∈ value.map (fun x => x.Key)
  · rw [keys_mapSet_of_key_mem he]
    constructor
    · exact Or.inl
    · rintro (h | h)
      · exact h
      · exact h ▸ he
  · rw [mapSet_of_key_not_mem he]
    simp only [List.map_append, List.mem_append, List.map_cons, List.map_nil,
      List.mem_singleton]

theorem foldl_mapSet_keys :
    ∀ (es : List DescriptorEntity) (value : EntityMap),
      (value.map (fun x => x.Key)).Nodup →
      ((es.foldl mapSet value).map (fun x => x.Key)).Nodup ∧
      ∀ key, key ∈ (es.foldl mapSet value).map (fun x => x.Key) ↔
        key ∈ value.map (fun x => x.Key) ∨ key ∈ es.map (fun x => x.Key) := by
  intro es
  induction es with
  | nil => intro value h; exact ⟨h, fun key => by simp⟩
  | cons e es ih =>
    intro value h
    obtain ⟨h1, h2⟩ := ih (mapSet value e) (keys_mapSet_nodup h)
    refine ⟨h1, fun key => ?_⟩
    rw [List.foldl_cons, h2 key, mem_keys_mapSet, List.map_cons, List.mem_cons, or_assoc]

theorem foldl_mapSet_of_nodup :
    ∀ (es : List DescriptorEntity) (value : EntityMap),
      ((value ++ es).map (fun x => x.Key)).Nodup → es.foldl mapSet value = value ++ es := by
  intro es
  induction es with
  | nil => intro value _; simp
  | cons e es ih =>
    intro value h
    have he : e.Key ∉ value.map (fun x => x.Key) := by
      intro hmem
      rw [List.map_append, List.map_cons] at h
      exact (List.nodup_append.1 h).2.2 hmem (List.mem_cons_self _ _)
    rw [List.foldl_cons, mapSet_of_key_not_mem he, ih (value ++ [e])]
    · simp
    · simpa using h

theorem mem_mapSet_key {value : EntityMap} {e x : DescriptorEntity}
    (hnodup : (value.map (fun z => z.Key)).Nodup) :
    x ∈ mapSet value e → x = e ∨ (x ∈ value ∧ x.Key ≠ e.Key) := by
  induction value with
  | nil =>
    intro h
    simp only [mapSet, List.mem_singleton] at h
    exact Or.inl h
  | cons y ys ih =>
    rw [List.map_cons, List.nodup_cons] at hnodup
    simp only [mapSet]
    by_cases hy : y.Key = e.Key
    · rw [if_pos hy]
      intro h
      rcases List.mem_cons.1 h with h | h
      · exact Or.inl h
      · refine Or.inr ⟨List.mem_cons_of_mem _ h, fun hx => hnodup.1 ?_⟩
        rw [hy, ← hx]
        exact List.mem_map.2 ⟨x, h, rfl⟩
    · rw [if_neg hy]
      intro h
      rcases List.mem_cons.1 h with h | h
      · exact Or.inr ⟨h ▸ List.mem_cons_self _ _, h ▸ hy⟩
      · rcases ih hnodup.2 h with h | h
        · exact Or.inl h
        · exact Or.inr ⟨List.mem_cons_of_mem _ h.1, h.2⟩

theorem foldl_mapSet_last :
    ∀ (es : List DescriptorEntity) (value : EntityMap),
      (value.map (fun z => z.Key)).Nodup → ∀ x ∈ es.foldl mapSet value,
      (∃ l1 l2, es = l1 ++ x :: l2 ∧ ∀ y ∈ l2, y.Key ≠ x.Key) ∨
        (x ∈ value ∧ ∀ y ∈ es, y.Key ≠ x.Key) := by
  intro es
  induction es with
  | nil =>
    intro value _ x hx
    exact Or.inr ⟨hx, fun y hy => absurd hy (List.not_mem_nil _)⟩
  | cons e es ih =>
    intro value hnodup x hx
    rcases ih (mapSet value e) (keys_mapSet_nodup hnodup) x hx with
      ⟨l1, l2, hes, hl2⟩ | ⟨hmem, hrest⟩
    · exact Or.inl ⟨e :: l1, l2, by rw [hes, List.cons_append], hl2⟩
    · rcases mem_mapSet_key hnodup hmem with rfl | ⟨hv, hne⟩
      · exact Or.inl ⟨[], es, rfl, hrest⟩
      · refine Or.inr ⟨hv, fun y hy => ?_⟩
        rcases List.mem_cons.1 hy with rfl | hy
        · exact fun hc => hne hc.symm
        · exact hrest y hy

theorem mem_mapSet_self (value : EntityMap) (e : DescriptorEntity) : e ∈ mapSet value e := by
  induction value with
  | nil => exact List.mem_singleton.2 rfl
  | cons y ys ih =>
    simp only [mapSet]
    split
    · exact List.mem_cons_self _ _
    · exact List.mem_cons_of_mem _ ih

theorem mem_mapSet_of_ne {value : EntityMap} {e x : DescriptorEntity} (hx : x ∈ value)
    (hne : e.Key ≠ x.Key) : x ∈ mapSet value e := by
  induction value with
  | nil => exact absurd hx (List.not_mem_nil _)
  | cons y ys ih =>
    simp only [mapSet]
    by_cases hy : y.Key = e.Key
    · rw [if_pos hy]
      rcases List.mem_cons.1 hx with rfl | hx
      · exact absurd hy.symm hne
      · exact List.mem_cons_of_mem _ hx
    · rw [if_neg hy]
      rcases List.mem_cons.1 hx with rfl | hx
      · exact List.mem_cons_self _ _
      · exact List.mem_cons_of_mem _ (ih hx)

theorem mem_foldl_mapSet_of_ne :
    ∀ (es : List DescriptorEntity) (value : EntityMap) (x : DescriptorEntity),
      x ∈ value → (∀ y ∈ es, y.Key ≠ x.Key) → x ∈ es.foldl mapSet value := by
  intro es
  induction es with
  | nil => intro value x hx _; exact hx
  | cons e es ih =>
    intro value x hx hne
    exact ih (mapSet value e) x (mem_mapSet_of_ne hx (hne e (List.mem_cons_self _ _)))
      (fun y hy => hne y (List.mem_cons_of_mem _ hy))

theorem foldl_mapSet_keeps_last (l1 l2 : List DescriptorEntity) (x : DescriptorEntity)
    (value : EntityMap) (hl2 : ∀ y ∈ l2, y.Key ≠ x.Key) :
    x ∈ (l1 ++ x :: l2).foldl mapSet value := by
  rw [List.foldl_append, List.foldl_cons]
  exact mem_foldl_mapSet_of_ne l2 _ x (mem_mapSet_self _ x) hl2

/-- C4 as stated fails: a stream with the count 2 and two entities under the
key `A` decodes to a map with one entity. -/
theorem newDescriptorList_count_counterexample :
    ¬ ∀ (fuel : Nat) (reader r1 rd : Reader) (count : Int) (value : EntityMap),
      reader.ReadInt32 = .ok count r1 → 0 ≤ count →
      newDescriptorList fuel reader = .ok value rd → (value.length : Int) = count :=
  fun h => absurd
    (h 1 ⟨duplicateKeyStream, 0⟩ ⟨duplicateKeyStream, 4⟩ ⟨duplicateKeyStream, 30⟩ 2
      [⟨"A", "long", .int32 2⟩] rfl (by decide) rfl)
    (by decide)

/-- C4, as amended.  When `newDescriptorList` succeeds after reading a count
`n ≥ 0`, it has decoded `n` entities one after the other, and the returned map
holds exactly one entity for each distinct key among them (an entity replaces
an earlier one with the same key): its keys are pairwise distinct and are the
keys read, each of its entities is one of the `n` decoded, it holds at most `n`
entities, and exactly the `n` decoded entities when their keys are pairwise
distinct.  The entity kept for a key is the last one decoded with that key:
each entity of the map is followed in the stream by no entity with the same
key, and every decoded entity that is followed by none with the same key is in
the map. -/
theorem newDescriptorList_one_entity_per_key (fuel : Nat) (reader r1 rd : Reader)
    (count : Int) (value : EntityMap) (hcount : reader.ReadInt32 = .ok count r1)
    (hn : 0 ≤ count) (h : newDescriptorList (fuel + 1) reader = .ok value rd) :
    ∃ es : List DescriptorEntity, (es.length : Int) = count ∧
      DecodesSeq (listEntity (newDescriptorList fuel)) r1 es rd ∧
      (value.map (fun x => x.Key)).Nodup ∧
      (∀ key, key ∈ value.map (fun x => x.Key) ↔ key ∈ es.map (fun x => x.Key)) ∧
      (∀ entity ∈ value, entity ∈ es) ∧
      (value.length : Int) ≤ count ∧
      ((es.map (fun x => x.Key)).Nodup → value = es) ∧
      (∀ entity ∈ value, ∃ l1 l2, es = l1 ++ entity :: l2 ∧
        ∀ later ∈ l2, later.Key ≠ entity.Key) ∧
      (∀ l1 entity l2, es = l1 ++ entity :: l2 →
        (∀ later ∈ l2, later.Key ≠ entity.Key) → entity ∈ value) := by
  rw [newDescriptorList, hcount] at h
  simp only [Res.bind] at h
  obtain ⟨es, hlen, hseq, hm⟩ := entityLoop_ok _ _ _ _ _ h
  obtain ⟨hnodup, hkeys⟩ := foldl_mapSet_keys es [] List.nodup_nil
  rw [← hm] at hnodup hkeys
  have hsub : ∀ entity ∈ value, entity ∈ es := by
    intro entity hmem
    rw [hm] at hmem
    rcases mem_foldl_mapSet hmem with h | h
    · exact h
    · exact absurd h (List.not_mem_nil _)
  have hkeys' : ∀ key, key ∈ value.map (fun x => x.Key) ↔ key ∈ es.map (fun x => x.Key) := by
    intro key
    rw [hkeys key]
    simp
  have hle : value.length ≤ es.length := by
    have := (List.subperm_of_subset hnodup (fun key hk => (hkeys' key).1 hk)).length_le
    simpa using this
  refine ⟨es, by omega, hseq, hnodup, hkeys', hsub, by omega, fun hd => ?_, ?_, ?_⟩
  · rw [hm, foldl_mapSet_of_nodup es [] (by simpa using hd)]
    rfl
  · intro entity hmem
    rw [hm] at hmem
    rcases foldl_mapSet_last es [] List.nodup_nil entity hmem with h | h
    · exact h
    · exact absurd h.1 (List.not_mem_nil _)
  · intro l1 entity l2 hes hlater
    rw [hm, hes]
    exact foldl_mapSet_keeps_last l1 l2 entity [] hlater


theorem newDescriptorList_one_entity_per_key_witness :
    ∃ es : List DescriptorEntity, (es.length : Int) = 2 ∧
      DecodesSeq (listEntity (newDescriptorList 0)) ⟨duplicateKeyStream, 4⟩ es
        ⟨duplicateKeyStream, 30⟩ ∧
      (([⟨"A", "long", .int32 2⟩] : EntityMap).map (fun x => x.Key)).Nodup ∧
      (∀ key, key ∈ ([⟨"A", "long", .int32 2⟩] : EntityMap).map (fun x => x.Key) ↔
        key ∈ es.map (fun x => x.Key)) ∧
      (∀ entity ∈ ([⟨"A", "long", .int32 2⟩] : EntityMap), entity ∈ es) ∧
      ((([⟨"A", "long", .int32 2⟩] : EntityMap).length : Nat) : Int) ≤ 2 ∧
      ((es.map (fun x => x.Key)).Nodup → ([⟨"A", "long", .int32 2⟩] : EntityMap) = es) ∧
      (∀ entity ∈ ([⟨"A", "long", .int32 2⟩] : EntityMap), ∃ l1 l2, es = l1 ++ entity :: l2 ∧
        ∀ later ∈ l2, later.Key ≠ entity.Key) ∧
      (∀ l1 entity l2, es = l1 ++ entity :: l2 →
        (∀ later ∈ l2, later.Key ≠ entity.Key) →
        entity ∈ ([⟨"A", "long", .int32 2⟩] : EntityMap)) :=
  newDescriptorList_one_entity_per_key 0 ⟨duplicateKeyStream, 0⟩ ⟨duplicateKeyStream, 4⟩
    ⟨duplicateKeyStream, 30⟩ 2 [⟨"A", "long", .int32 2⟩] rfl (by decide) rfl

/-! ## C5: the items of a reference -/

/-- C5 fails on the code.  On a reference with the count 2 and two `Clss`
items (classes `abcd`, then `efgh`), `newDescriptorReference` returns a map
with a single entity, the second item: `entity.Key` is never assigned, so every
item is stored under the empty key and replaces the one before. -/
theorem newDescriptorReference_two_items :
    newDescriptorReference ⟨twoClassReferenceStream, 0⟩ =
      .ok [⟨"", "Clss", .class_ ⟨"", "efgh"⟩⟩] ⟨twoClassReferenceStream, 36⟩ :=
  rfl

/-! ## C6: the order of the rendered items -/

theorem reverseOrder_valid : reverseOrder.Valid :=
  fun items => List.reverse_perm (List.range items.length)

theorem insertionOrder_valid : insertionOrder.Valid :=
  fun items => List.Perm.refl (List.range items.length)

theorem map_getD_range (blocks : List String) :
    (List.range blocks.length).map (fun i => blocks.getD i "") = blocks := by
  apply List.ext_getElem
  · simp
  · intro i h1 h2
    simp [List.getD_eq_getElem?_getD, List.getElem?_eq_getElem h2]

theorem length_itemStrings (F : TextFormat) (ρ : RangeOrder) (len : Nat) (indent : Nat) :
    ∀ items : List (EntityOf Value), (itemStrings F ρ len items indent).length = items.length := by
  intro items
  induction items with
  | nil => simp [itemStrings]
  | cons x xs ih =>
    obtain ⟨key, ty, v⟩ := x
    simp [itemStrings, ih]

/-- C6 as stated fails: the descriptor decoded from a stream with the items
`A`, `B`, `C` in that order is rendered, with a range order that visits the map
in reverse, with the line of `C` first and the line of `A` last. -/
theorem Descriptor_String_order_counterexample :
    NewDescriptor 1 ⟨abcStream, 0⟩ =
        .ok ⟨"", "desc", [⟨"A", "long", .int32 1⟩, ⟨"B", "long", .int32 2⟩,
          ⟨"C", "long", .int32 3⟩]⟩ ⟨abcStream, 55⟩ ∧
      reverseOrder.Valid ∧
      Descriptor.String plainFormat reverseOrder
        ⟨"", "desc", [⟨"A", "long", .int32 1⟩, ⟨"B", "long", .int32 2⟩,
          ⟨"C", "long", .int32 3⟩]⟩ 0 =
        "Descriptor [3]: desc\n\x7b\n  [long] C: 3\n  [long] B: 2\n  [long] A: 1\n\x7d" :=
  ⟨rfl, reverseOrder_valid, rfl⟩

/-- C6, as amended.  `Descriptor.String` renders the header, then one block of
lines for each item of the map, each item exactly once, in the order in which
`range` visits the map, then the closing brace.  Go leaves that order
unspecified: the blocks are a permutation of the blocks in decode order, and
they are in decode order when `range` visits the entries in insertion order. -/
theorem Descriptor_String_blocks (F : TextFormat) (ρ : RangeOrder) (hρ : ρ.Valid)
    (d : Descriptor) (indent : Nat) :
    ∃ blocks : List String,
      Descriptor.String F ρ d indent =
        F.indent indent ++ "Descriptor [" ++ toString d.Items.length ++ "]: " ++ d.Class
          ++ F.newLine ++ F.indent indent ++ "\x7b" ++ F.newLine
          ++ String.join blocks ++ F.indent indent ++ "\x7d" ∧
      blocks = (ρ d.Items).map
        (fun i => (itemStrings F ρ d.Items.length d.Items indent).getD i "") ∧
      blocks.Perm (itemStrings F ρ d.Items.length d.Items indent) ∧
      blocks.length = d.Items.length ∧
      (ρ d.Items = insertionOrder d.Items →
        blocks = itemStrings F ρ d.Items.length d.Items indent) := by
  obtain ⟨name, cls, items⟩ := d
  refine ⟨_, ?_, rfl, ?_, ?_, ?_⟩
  · simp only [Descriptor.String, visit]
  · have h := (hρ items).map
      (fun i => (itemStrings F ρ items.length items indent).getD i "")
    have hr := map_getD_range (itemStrings F ρ items.length items indent)
    rw [length_itemStrings] at hr
    rw [hr] at h
    exact h
  · have h := (hρ items).length_eq
    simp only [List.length_map, List.length_range] at h ⊢
    exact h
  · intro h
    have hr := map_getD_range (itemStrings F ρ items.length items indent)
    rw [length_itemStrings] at hr
    simp only at h ⊢
    rw [h, insertionOrder, hr]

theorem Descriptor_String_blocks_witness :
    reverseOrder.Valid ∧
    ∃ blocks : List String,
      Descriptor.String plainFormat reverseOrder abDescriptor 0 =
        plainFormat.indent 0 ++ "Descriptor [" ++ toString abDescriptor.Items.length
          ++ "]: " ++ abDescriptor.Class ++ plainFormat.newLine ++ plainFormat.indent 0
          ++ "\x7b" ++ plainFormat.newLine ++ String.join blocks ++ plainFormat.indent 0
          ++ "\x7d" ∧
      blocks = (reverseOrder abDescriptor.Items).map
        (fun i => (itemStrings plainFormat reverseOrder abDescriptor.Items.length
          abDescriptor.Items 0).getD i "") ∧
      blocks.Perm (itemStrings plainFormat reverseOrder abDescriptor.Items.length
        abDescriptor.Items 0) ∧
      blocks.length = abDescriptor.Items.length ∧
      (reverseOrder abDescriptor.Items = insertionOrder abDescriptor.Items →
        blocks = itemStrings plainFormat reverseOrder abDescriptor.Items.length
          abDescriptor.Items 0) :=
  ⟨reverseOrder_valid,
    Descriptor_String_blocks plainFormat reverseOrder reverseOrder_valid abDescriptor 0⟩

/-! ## C7: booleans -/

/-- C7. An entity with the type tag `bool` and the payload byte `b` decodes to
the boolean `b == 1`, which is true if and only if `b = 1`; the bytes 0 and 2
both give false. -/
theorem listEntity_bool (list : Reader → Res EntityMap) (reader r1 r2 r3 : Reader)
    (key : String) (b : UInt8) (hkey : reader.ReadDynamicString = .ok key r1)
    (hty : r1.ReadString 4 = .ok "bool" r2) (hb : r2.ReadByte = .ok b r3) :
    listEntity list reader = .ok ⟨key, "bool", .bool (b == 1)⟩ r3 ∧
      ((b == 1) = true ↔ b = 1) ∧ ((0 : UInt8) == 1) = false ∧ ((2 : UInt8) == 1) = false := by
  refine ⟨?_, by simp, by decide, by decide⟩
  simp [listEntity, hkey, hty, Res.bind, listValue, hb, Res.map]

theorem listEntity_bool_witness :
    listEntity (newDescriptorList 0) ⟨boolStream 2, 4⟩ =
        .ok ⟨"flag", "bool", .bool ((2 : UInt8) == 1)⟩ ⟨boolStream 2, 17⟩ ∧
      (((2 : UInt8) == 1) = true ↔ (2 : UInt8) = 1) ∧ ((0 : UInt8) == 1) = false ∧
      ((2 : UInt8) == 1) = false :=
  listEntity_bool (newDescriptorList 0) ⟨boolStream 2, 4⟩ ⟨boolStream 2, 12⟩
    ⟨boolStream 2, 16⟩ ⟨boolStream 2, 17⟩ "flag" 2 rfl rfl rfl

/-! ## C8: a list in a list -/

theorem toNat_ofNat (n : Nat) : (UInt8.ofNat n).toNat = n % 256 := by
  simp [UInt8.ofNat, UInt8.toNat]

theorem toInt32_beNat_be32 (n : Nat) (h : n < 2 ^ 31) : toInt32 (beNat (be32 n)) = n := by
  have hb : beNat (be32 n) = n := by
    simp only [beNat, be32, List.foldl_cons, List.foldl_nil, toNat_ofNat]
    norm_num at h ⊢
    omega
  rw [hb, toInt32]
  have h1 : n % 2 ^ 32 = n := Nat.mod_eq_of_lt (by norm_num at h ⊢; omega)
  rw [h1, if_pos h]

theorem readBytes_at {r : Reader} {pre rest : List UInt8} (bs post : List UInt8)
    (h : At r pre rest) (hrest : rest = bs ++ post) :
    ∃ r1, r.readBytes bs.length = .ok bs r1 ∧ At r1 (pre ++ bs) post := by
  obtain ⟨buf, pos⟩ := r
  obtain ⟨hbuf, hpos⟩ := h
  simp only at hbuf hpos
  subst hbuf hpos hrest
  refine ⟨⟨pre ++ (bs ++ post), (pre.length : Int) + bs.length⟩, ?_, ?_⟩
  · have hc : (0 : Int) ≤ (bs.length : Int) ∧ (0 : Int) ≤ (pre.length : Int) ∧
        (pre.length : Int) + (bs.length : Int) ≤ ((pre ++ (bs ++ post)).length : Int) := by
      refine ⟨Int.ofNat_nonneg _, Int.ofNat_nonneg _, ?_⟩
      simp only [List.length_append]
      omega
    simp only [Reader.readBytes, if_pos hc, Int.toNat_ofNat, List.drop_left, List.take_left]
  · refine ⟨by simp, ?_⟩
    simp only [List.length_append]
    omega

theorem ReadInt32_at {r : Reader} {pre rest : List UInt8} (n : Nat) (post : List UInt8)
    (hn : n < 2 ^ 31) (h : At r pre rest) (hrest : rest = be32 n ++ post) :
    ∃ r1, r.ReadInt32 = .ok (n : Int) r1 ∧ At r1 (pre ++ be32 n) post := by
  obtain ⟨r1, h1, h2⟩ := readBytes_at (be32 n) post h hrest
  have hlen : ((be32 n).length : Int) = 4 := rfl
  rw [hlen] at h1
  exact ⟨r1, by simp only [Reader.ReadInt32, h1, Res.map, toInt32_beNat_be32 n hn], h2⟩

theorem ReadString_at {r : Reader} {pre rest : List UInt8} (bs post : List UInt8)
    (h : At r pre rest) (hrest : rest = bs ++ post) :
    ∃ r1, r.ReadString bs.length = .ok (bytesToString bs) r1 ∧ At r1 (pre ++ bs) post := by
  obtain ⟨r1, h1, h2⟩ := readBytes_at bs post h hrest
  exact ⟨r1, by simp only [Reader.ReadString, h1, Res.map], h2⟩

theorem ReadDynamicString_at {r : Reader} {pre rest : List UInt8} (enc key post : List UInt8)
    (hkey : EncodesKey enc key) (h : At r pre rest) (hrest : rest = enc ++ post) :
    ∃ r1, r.ReadDynamicString = .ok (bytesToString key) r1 ∧ At r1 (pre ++ enc) post := by
  rcases hkey with ⟨h0, hlt, rfl⟩ | ⟨h4, rfl⟩
  · obtain ⟨r1, h1, h2⟩ := ReadInt32_at key.length (key ++ post) hlt h
      (by rw [hrest, List.append_assoc])
    obtain ⟨r2, h3, h4⟩ := ReadString_at key post h2 rfl
    refine ⟨r2, ?_, by rw [← List.append_assoc]; exact h4⟩
    have hne : ¬ ((key.length : Int) = 0) := by omega
    simp only [Reader.ReadDynamicString, h1, Res.bind, if_neg hne, h3]
  · obtain ⟨r1, h1, h2⟩ := ReadInt32_at 0 (key ++ post) (by norm_num) h
      (by rw [hrest, List.append_assoc])
    obtain ⟨r2, h3, h5⟩ := ReadString_at key post h2 rfl
    refine ⟨r2, ?_, by rw [← List.append_assoc]; exact h5⟩
    have hlen : ((key.length : Nat) : Int) = 4 := by omega
    rw [hlen] at h3
    simp only [Reader.ReadDynamicString, h1, Res.bind, Nat.cast_zero, if_true, h3]

/-- A list with a single entity: the count 1, the key, the tag, and a value
that `listValue` decodes from `body`. -/
theorem newDescriptorList_single_at {r : Reader} {pre rest : List UInt8} (fuel : Nat)
    (enc key tag body post : List UInt8) (v : Value) (hkey : EncodesKey enc key)
    (htag : tag.length = 4) (h : At r pre rest)
    (hrest : rest = be32 1 ++ (enc ++ tag ++ body) ++ post)
    (hval : ∀ r2, At r2 (pre ++ be32 1 ++ enc ++ tag) (body ++ post) →
      ∃ r3, listValue (newDescriptorList fuel) (bytesToString tag) (bytesToString key) r2 =
          .ok v r3 ∧
        At r3 (pre ++ (be32 1 ++ (enc ++ tag ++ body))) post) :
    ∃ r3, newDescriptorList (fuel + 1) r =
        .ok [⟨bytesToString key, bytesToString tag, v⟩] r3 ∧
      At r3 (pre ++ (be32 1 ++ (enc ++ tag ++ body))) post := by
  obtain ⟨r1, h1, hat1⟩ := ReadInt32_at 1 (enc ++ (tag ++ (body ++ post)))
    (by norm_num) h (by rw [hrest]; simp only [List.append_assoc])
  obtain ⟨r2, h2, hat2⟩ := ReadDynamicString_at enc key (tag ++ (body ++ post)) hkey hat1 rfl
  obtain ⟨r3, h3, hat3⟩ := ReadString_at tag (body ++ post) hat2 rfl
  obtain ⟨r4, h4, hat4⟩ := hval r3 hat3
  refine ⟨r4, ?_, hat4⟩
  have htag' : ((tag.length : Nat) : Int) = 4 := by omega
  rw [htag'] at h3
  simp only [newDescriptorList, h1, Res.bind, Nat.cast_one, Int.toNat_one, entityLoop,
    listEntity, h2, h3, h4, Res.map, mapSet]

/-- C8. For all keys, in either encoding of a key, the stream that encodes an entity list with one `VlLs` entity, whose payload is an
entity list with one `VlLs` entity, whose payload is an entity list with a
single `long` entity of value 42, decodes successfully (with fuel 3 or more,
for the three levels of lists), up to the end of the stream, to a two-level
nested list whose innermost element is the integer 42. -/
theorem newDescriptorList_nested_long (e1 e2 e3 k1 k2 k3 : List UInt8) (fuel : Nat)
    (h1 : EncodesKey e1 k1) (h2 : EncodesKey e2 k2) (h3 : EncodesKey e3 k3)
    (hfuel : 3 ≤ fuel) :
    newDescriptorList fuel ⟨nestedListStream e1 e2 e3, 0⟩ =
      .ok [⟨bytesToString k1, "VlLs", .map [⟨bytesToString k2, "VlLs",
          .map [⟨bytesToString k3, "long", .int32 42⟩]⟩]⟩]
        ⟨nestedListStream e1 e2 e3, (nestedListStream e1 e2 e3).length⟩ := by
  have hVlLs : bytesToString (ascii "VlLs") = "VlLs" := by decide
  have hlong : bytesToString (ascii "long") = "long" := by decide
  have hstart : At ⟨nestedListStream e1 e2 e3, 0⟩ [] (nestedListStream e1 e2 e3) :=
    ⟨rfl, rfl⟩
  obtain ⟨r, hr, hat⟩ := newDescriptorList_single_at 2 e1 k1 (ascii "VlLs")
    (be32 1 ++ (e2 ++ ascii "VlLs" ++
      (be32 1 ++ (e3 ++ ascii "long" ++ be32 42))))
    [] (.map [⟨bytesToString k2, "VlLs", .map [⟨bytesToString k3, "long", .int32 42⟩]⟩])
    h1 rfl hstart (by simp [nestedListStream]) (by
      intro ra hra
      obtain ⟨rb, hrb, hatb⟩ := newDescriptorList_single_at 1 e2 k2 (ascii "VlLs")
        (be32 1 ++ (e3 ++ ascii "long" ++ be32 42)) []
        (.map [⟨bytesToString k3, "long", .int32 42⟩]) h2 rfl hra
        (by simp) (by
          intro rc hrc
          obtain ⟨rd, hrd, hatd⟩ := newDescriptorList_single_at 0 e3 k3 (ascii "long")
            (be32 42) [] (.int32 42) h3 rfl hrc (by simp) (by
              intro re hre
              obtain ⟨rf, hrf, hatf⟩ := ReadInt32_at 42 [] (by norm_num) hre rfl
              refine ⟨rf, ?_, by simpa using hatf⟩
              rw [hlong]
              simp [listValue, hrf, Res.map])
          refine ⟨rd, ?_, by simpa using hatd⟩
          rw [hVlLs]
          rw [hlong] at hrd
          simp [listValue, hrd, Res.map])
      refine ⟨rb, ?_, by simpa using hatb⟩
      rw [hVlLs] at hrb ⊢
      simp [listValue, hrb, Res.map])
  rw [hVlLs] at hr
  rw [extends_newDescriptorList hfuel _ (by rw [hr]; exact fun hc => Res.noConfusion hc), hr]
  obtain ⟨buf, pos⟩ := r
  obtain ⟨hbuf, hpos⟩ := hat
  simp only [List.nil_append, List.append_nil] at hbuf hpos
  have hs : nestedListStream e1 e2 e3 = be32 1 ++ (e1 ++ ascii "VlLs" ++
      (be32 1 ++ (e2 ++ ascii "VlLs" ++
        (be32 1 ++ (e3 ++ ascii "long" ++ be32 42))))) := rfl
  rw [hs, hbuf, hpos]

theorem newDescriptorList_nested_long_witness :
    EncodesKey (be32 1 ++ ascii "a") (ascii "a") ∧
      EncodesKey (be32 0 ++ ascii "null") (ascii "null") ∧
      EncodesKey (be32 3 ++ ascii "def") (ascii "def") ∧ 3 ≤ 4 ∧
      newDescriptorList 4
          ⟨nestedListStream (be32 1 ++ ascii "a") (be32 0 ++ ascii "null")
            (be32 3 ++ ascii "def"), 0⟩ =
        .ok [⟨bytesToString (ascii "a"), "VlLs", .map [⟨bytesToString (ascii "null"), "VlLs",
            .map [⟨bytesToString (ascii "def"), "long", .int32 42⟩]⟩]⟩]
          ⟨nestedListStream (be32 1 ++ ascii "a") (be32 0 ++ ascii "null")
            (be32 3 ++ ascii "def"),
            (nestedListStream (be32 1 ++ ascii "a") (be32 0 ++ ascii "null")
              (be32 3 ++ ascii "def")).length⟩ :=
  have ha : EncodesKey (be32 1 ++ ascii "a") (ascii "a") :=
    Or.inl ⟨by decide, by decide, rfl⟩
  have hb : EncodesKey (be32 0 ++ ascii "null") (ascii "null") := Or.inr ⟨rfl, rfl⟩
  have hc : EncodesKey (be32 3 ++ ascii "def") (ascii "def") :=
    Or.inl ⟨by decide, by decide, rfl⟩
  ⟨ha, hb, hc, by decide, newDescriptorList_nested_long _ _ _ _ _ _ 4 ha hb hc (by decide)⟩

/-! ## C9: `alis` and `tdta` -/

/-- C9 as stated fails: no function recovers the payload of an `alis` entity
from its decoded value, since two payloads of the same length decode to the
same value. -/
theorem alis_payload_counterexample :
    ¬ ∃ retained : Value → List UInt8,
      ∀ payload ∈ ([[0xAA, 0xBB], [0xCC, 0xDD]] : List (List UInt8)),
        ∀ (value : EntityMap) (rd : Reader),
          newDescriptorList 1 ⟨rawDataStream "alis" payload, 0⟩ = .ok value rd →
          ∀ entity ∈ value, retained entity.Value = payload := by
  rintro ⟨retained, h⟩
  have h1 := h [0xAA, 0xBB] (by simp) [⟨"raw", "alis", .nil⟩]
    ⟨rawDataStream "alis" [0xAA, 0xBB], 21⟩ rfl _ (List.mem_singleton.2 rfl)
  have h2 := h [0xCC, 0xDD] (by simp) [⟨"raw", "alis", .nil⟩]
    ⟨rawDataStream "alis" [0xCC, 0xDD], 21⟩ rfl _ (List.mem_singleton.2 rfl)
  rw [h1] at h2
  exact absurd h2 (by decide)

/-- C9, as amended.  For an entity with the type tag `alis` or `tdta` the
decoder reads a 32-bit length `L` and skips `L` bytes: the cursor moves by `L`
and the `Value` of the entity is left empty; the bytes skipped are not kept. -/
theorem listEntity_alis_tdta (list : Reader → Res EntityMap) (reader r1 r2 r3 r4 : Reader)
    (key ty : String) (L : Int) (hkey : reader.ReadDynamicString = .ok key r1)
    (hty : r1.ReadString 4 = .ok ty r2) (htag : ty = "alis" ∨ ty = "tdta")
    (hlen : r2.ReadInt32 = .ok L r3) (hskip : r3.Skip L = .ok () r4) :
    listEntity list reader = .ok ⟨key, ty, .nil⟩ r4 ∧
      r4.Position = r3.Position + L ∧ r4.buf = r3.buf := by
  refine ⟨?_, ?_, ?_⟩
  · rcases htag with rfl | rfl <;>
      simp [listEntity, hkey, hty, Res.bind, listValue, skipLength, hlen, hskip, Res.map]
  · exact (Skip_position hskip).2
  · exact (Skip_position hskip).1

theorem listEntity_alis_tdta_witness :
    listEntity (newDescriptorList 0) ⟨rawDataStream "tdta" [0xAA, 0xBB], 4⟩ =
        .ok ⟨"raw", "tdta", .nil⟩ ⟨rawDataStream "tdta" [0xAA, 0xBB], 21⟩ ∧
      (⟨rawDataStream "tdta" [0xAA, 0xBB], 21⟩ : Reader).Position =
        (⟨rawDataStream "tdta" [0xAA, 0xBB], 19⟩ : Reader).Position + 2 ∧
      (⟨rawDataStream "tdta" [0xAA, 0xBB], 21⟩ : Reader).buf =
        (⟨rawDataStream "tdta" [0xAA, 0xBB], 19⟩ : Reader).buf :=
  listEntity_alis_tdta (newDescriptorList 0) ⟨rawDataStream "tdta" [0xAA, 0xBB], 4⟩
    ⟨rawDataStream "tdta" [0xAA, 0xBB], 11⟩ ⟨rawDataStream "tdta" [0xAA, 0xBB], 15⟩
    ⟨rawDataStream "tdta" [0xAA, 0xBB], 19⟩ ⟨rawDataStream "tdta" [0xAA, 0xBB], 21⟩
    "raw" "tdta" 2 rfl rfl (Or.inr rfl) rfl rfl

/-! ## C10: errors of nested decodes -/

theorem invokes_failsWith {c c' : Call} {e : DecodeError} (h : Invokes c c')
    (hfail : c'.failsWith e) : c.failsWith e := by
  cases h with
  | items hname hcls =>
    simp only [Call.failsWith] at hfail ⊢
    simp only [NewDescriptor, descriptorWith, hname, hcls, Res.bind, hfail, Res.map]
  | reference hcount hk hprev hkey hty =>
    simp only [Call.failsWith] at hfail ⊢
    rw [newDescriptorList, hcount]
    simp only [Res.bind]
    refine entityLoop_error_at (by omega) hprev ?_
    simp [listEntity, hkey, hty, Res.bind, listValue, hfail, Res.map]
  | descriptor hcount hk hprev hkey hty htag =>
    simp only [Call.failsWith, NewDescriptor] at hfail ⊢
    rw [newDescriptorList, hcount]
    simp only [Res.bind]
    refine entityLoop_error_at (by omega) hprev ?_
    rcases htag with rfl | rfl <;>
      simp [listEntity, hkey, hty, Res.bind, listValue, hfail, Res.map]
  | list hcount hk hprev hkey hty =>
    simp only [Call.failsWith] at hfail ⊢
    rw [newDescriptorList, hcount]
    simp only [Res.bind]
    refine entityLoop_error_at (by omega) hprev ?_
    simp [listEntity, hkey, hty, Res.bind, listValue, hfail, Res.map]

/-- C10. If a decode reached from a call of `NewDescriptor` through any number
of nested calls (`NewDescriptor` to `newDescriptorList`, `newDescriptorList` to
a nested descriptor, a nested `VlLs` list or an `obj ` reference) aborts with
an error, a truncated read or an unknown type tag, then the call of
`NewDescriptor` aborts with that same error and returns no descriptor. -/
theorem NewDescriptor_nested_error (fuel : Nat) (reader : Reader) (c : Call)
    (e : DecodeError) (hreach : Relation.ReflTransGen Invokes (.descriptor fuel reader) c)
    (hfail : c.failsWith e) :
    NewDescriptor fuel reader = .error e ∧
      ∀ d rd, NewDescriptor fuel reader ≠ .ok d rd := by
  have h : (Call.descriptor fuel reader).failsWith e := by
    induction hreach with
    | refl => exact hfail
    | tail _ hstep ih => exact ih (invokes_failsWith hstep hfail)
  simp only [Call.failsWith] at h
  refine ⟨h, fun d rd hc => ?_⟩
  rw [h] at hc
  exact Res.noConfusion hc

theorem NewDescriptor_nested_error_witness :
    Relation.ReflTransGen Invokes (.descriptor 2 ⟨nestedUnknownTagStream, 0⟩)
        (.list 1 ⟨nestedUnknownTagStream, 25⟩) ∧
      newDescriptorList 1 ⟨nestedUnknownTagStream, 25⟩ =
        .error (.panicked "Unknown OSType key [zzzz] in entity [X]") ∧
      NewDescriptor 2 ⟨nestedUnknownTagStream, 0⟩ =
        .error (.panicked "Unknown OSType key [zzzz] in entity [X]") ∧
      ∀ d rd, NewDescriptor 2 ⟨nestedUnknownTagStream, 0⟩ ≠ .ok d rd :=
  have hreach : Relation.ReflTransGen Invokes (.descriptor 2 ⟨nestedUnknownTagStream, 0⟩)
      (.list 1 ⟨nestedUnknownTagStream, 25⟩) :=
    Relation.ReflTransGen.tail
      (Relation.ReflTransGen.single
        (@Invokes.items 2 ⟨nestedUnknownTagStream, 0⟩ ⟨nestedUnknownTagStream, 4⟩
          ⟨nestedUnknownTagStream, 12⟩ "" "desc" rfl rfl))
      (@Invokes.list 1 0 ⟨nestedUnknownTagStream, 12⟩ ⟨nestedUnknownTagStream, 16⟩
        ⟨nestedUnknownTagStream, 16⟩ ⟨nestedUnknownTagStream, 21⟩
        ⟨nestedUnknownTagStream, 25⟩ 1 [] "L" rfl (by decide) rfl rfl rfl)
  have hfail : (Call.list 1 ⟨nestedUnknownTagStream, 25⟩).failsWith
      (.panicked "Unknown OSType key [zzzz] in entity [X]") :=
    show newDescriptorList 1 ⟨nestedUnknownTagStream, 25⟩ = _ from rfl
  ⟨hreach, hfail,
    NewDescriptor_nested_error 2 ⟨nestedUnknownTagStream, 0⟩ _ _ hreach hfail⟩

/-! ## The text of a map -/

theorem foldl_append_string (l : List String) (a : String) :
    l.foldl (fun r s => r ++ s) a = a ++ l.foldl (fun r s => r ++ s) "" := by
  induction l generalizing a with
  | nil => simp
  | cons x xs ih =>
    rw [List.foldl_cons, List.foldl_cons, ih (a ++ x), ih ("" ++ x), String.empty_append,
      String.append_assoc]

theorem join_cons_string (x : String) (xs : List String) :
    String.join (x :: xs) = x ++ String.join xs := by
  simp only [String.join, List.foldl_cons, String.empty_append]
  exact foldl_append_string xs x

theorem join_of_mem {b : String} {blocks : List String} (h : b ∈ blocks) :
    ∃ before after : String, String.join blocks = before ++ b ++ after := by
  induction blocks with
  | nil => exact absurd h (List.not_mem_nil _)
  | cons x xs ih =>
    rcases List.mem_cons.1 h with rfl | h
    · exact ⟨"", String.join xs, by rw [join_cons_string, String.empty_append]⟩
    · obtain ⟨before, after, hj⟩ := ih h
      exact ⟨x ++ before, after, by
        rw [join_cons_string, hj, String.append_assoc, String.append_assoc,
          String.append_assoc]⟩

theorem itemStrings_eq_map (F : TextFormat) (ρ : RangeOrder) (len : Nat) (indent : Nat) :
    ∀ items : List (EntityOf Value), itemStrings F ρ len items indent =
      items.map fun item =>
        itemLine F indent item.Type_ item.Key (valueString F ρ len item.Type_ indent item.Value) := by
  intro items
  induction items with
  | nil => simp [itemStrings]
  | cons x xs ih =>
    obtain ⟨key, ty, v⟩ := x
    simp only [itemStrings, ih, List.map_cons, itemLine]

theorem visit_blocks (ρ : RangeOrder) (hρ : ρ.Valid) (items : EntityMap)
    (blocks : List String) (hlen : blocks.length = items.length) :
    ((ρ items).map fun i => blocks.getD i "").Perm blocks := by
  have h := (hρ items).map (fun i => blocks.getD i "")
  have hr := map_getD_range blocks
  rw [hlen] at hr
  rw [hr] at h
  exact h

theorem stringList_renders_item (F : TextFormat) (ρ : RangeOrder) (hρ : ρ.Valid)
    (items : EntityMap) (indent : Nat) (item : DescriptorEntity) (hmem : item ∈ items) :
    RendersItem F ρ items indent item.Type_ item.Key
      (valueString F ρ items.length item.Type_ indent item.Value) := by
  have hperm := visit_blocks ρ hρ items (itemStrings F ρ items.length items indent)
    (length_itemStrings F ρ items.length indent items)
  have hb : itemLine F indent item.Type_ item.Key
      (valueString F ρ items.length item.Type_ indent item.Value) ∈
      (ρ items).map fun i => (itemStrings F ρ items.length items indent).getD i "" := by
    rw [hperm.mem_iff, itemStrings_eq_map]
    exact List.mem_map.2 ⟨item, hmem, rfl⟩
  exact join_of_mem hb

theorem valueString_of_literalText (F : TextFormat) (ρ : RangeOrder) (len : Nat)
    (ty : String) (indent : Nat) {v : Value} {text : String} (h : literalText v = some text) :
    valueString F ρ len ty indent v = text := by
  cases v <;> simp only [literalText, Option.some.injEq] at h <;> try exact absurd h (by simp)
  · simp only [valueString]; exact h
  · simp only [valueString]; exact h
  · rename_i b
    cases b <;> simp only [valueString] <;> exact h

/-! ## C11: the layout of a rendered descriptor -/

/-- C11. `Descriptor.String` of `d` at `indent` is the header line at that
indent, `Descriptor [<number of items>]: <Class>`, the line with the opening
brace at that indent, the rendered items, and the closing brace at that
indent.  The rendered items are one block for each item of `d`, in the order
of the visit of `range`, each starting with the indentation of level
`indent + 1`; when every item has an Integer, Boolean or Text value each block
is a single item line, so there are exactly as many item lines as items. -/
theorem Descriptor_String_layout (F : TextFormat) (ρ : RangeOrder) (hρ : ρ.Valid)
    (d : Descriptor) (indent : Nat) :
    ∃ blocks : List String,
      Descriptor.String F ρ d indent =
        F.indent indent ++ "Descriptor [" ++ toString d.Items.length ++ "]: " ++ d.Class
          ++ F.newLine
          ++ F.indent indent ++ "\x7b" ++ F.newLine
          ++ String.join blocks
          ++ F.indent indent ++ "\x7d" ∧
      blocks.length = d.Items.length ∧
      blocks.Perm (d.Items.map fun item =>
        itemLine F indent item.Type_ item.Key
          (valueString F ρ d.Items.length item.Type_ indent item.Value)) ∧
      ((∀ item ∈ d.Items, ∃ text, literalText item.Value = some text) →
        blocks.Perm (d.Items.map fun item =>
          itemLine F indent item.Type_ item.Key ((literalText item.Value).getD ""))) := by
  obtain ⟨name, cls, items⟩ := d
  have hperm := visit_blocks ρ hρ items (itemStrings F ρ items.length items indent)
    (length_itemStrings F ρ items.length indent items)
  refine ⟨(ρ items).map fun i => (itemStrings F ρ items.length items indent).getD i "",
    ?_, ?_, ?_, ?_⟩
  · simp only [Descriptor.String, visit]
  · rw [hperm.length_eq, length_itemStrings]
  · rw [← itemStrings_eq_map]
    exact hperm
  · intro hlit
    have hmap : (items.map fun item =>
          itemLine F indent item.Type_ item.Key
            (valueString F ρ items.length item.Type_ indent item.Value)) =
        items.map fun item =>
          itemLine F indent item.Type_ item.Key ((literalText item.Value).getD "") := by
      apply List.map_congr_left
      intro item hitem
      obtain ⟨text, ht⟩ := hlit item hitem
      rw [valueString_of_literalText F ρ items.length item.Type_ indent ht, ht]
      rfl
    simp only at hmap ⊢
    rw [← hmap, ← itemStrings_eq_map]
    exact hperm

theorem Descriptor_String_layout_witness :
    reverseOrder.Valid ∧
    ∃ blocks : List String,
      Descriptor.String plainFormat reverseOrder abDescriptor 3 =
        plainFormat.indent 3 ++ "Descriptor [" ++ toString abDescriptor.Items.length ++ "]: "
          ++ abDescriptor.Class ++ plainFormat.newLine
          ++ plainFormat.indent 3 ++ "\x7b" ++ plainFormat.newLine
          ++ String.join blocks
          ++ plainFormat.indent 3 ++ "\x7d" ∧
      blocks.length = abDescriptor.Items.length ∧
      blocks.Perm (abDescriptor.Items.map fun item =>
        itemLine plainFormat 3 item.Type_ item.Key
          (valueString plainFormat reverseOrder abDescriptor.Items.length item.Type_ 3
            item.Value)) ∧
      ((∀ item ∈ abDescriptor.Items, ∃ text, literalText item.Value = some text) →
        blocks.Perm (abDescriptor.Items.map fun item =>
          itemLine plainFormat 3 item.Type_ item.Key ((literalText item.Value).getD ""))) :=
  ⟨reverseOrder_valid,
    Descriptor_String_layout plainFormat reverseOrder reverseOrder_valid abDescriptor 3⟩

/-! ## C12: the header of a nested list -/

/-- C12 fails on the code.  The descriptor decoded from `listItemStream` has
one item, `L`, a list of two entities; its rendering has the header `List [1]`
over the two lines of the list: the number in the header is `len(items)`, the
size of the map the entity `L` is in, not the size of the list. -/
theorem stringList_nested_header :
    NewDescriptor 2 ⟨listItemStream, 0⟩ = .ok listItemDescriptor ⟨listItemStream, 55⟩ ∧
      Descriptor.String plainFormat insertionOrder listItemDescriptor 0 =
        "Descriptor [1]: desc\n\x7b\n  [VlLs] L:     List [1]\n    \x7b\n      [long] X: 1\n      [long] Y: 2\n    \x7d\n\x7d" :=
  ⟨rfl, rfl⟩

/-! ## C13: the field summaries -/

theorem hasAfter_of_append (x y : Char) :
    ∀ (a b : List Char), y ∈ b → hasAfter x y (a ++ x :: b) = true := by
  intro a
  induction a with
  | nil =>
    intro b hy
    simp [hasAfter, hy]
  | cons c cs ih =>
    intro b hy
    have h := ih b hy
    rw [List.cons_append, hasAfter, h, Bool.or_true]

/-- C13 as stated fails for `EnumRef`: with the name `1`, the class `2`, the
type `3` and the enum `4`, the summary is `[Type: 3, Enum: 4, Class: 2 Name: 1]`,
in which the four values do not occur in the order of the data model (name,
class, type, enum): nothing follows the name. -/
theorem referenceEnum_order_counterexample :
    valueString plainFormat insertionOrder 1 "Enmr" 0 (.referenceEnum ⟨"1", "2", "3", "4"⟩) =
        "[Type: 3, Enum: 4, Class: 2 Name: 1]" ∧
      ¬ OccurInOrder ["1", "2", "3", "4"] "[Type: 3, Enum: 4, Class: 2 Name: 1]" := by
  refine ⟨rfl, ?_⟩
  rintro ⟨b1, a1, h1, b2, a2, h2, -⟩
  have hd : ("[Type: 3, Enum: 4, Class: 2 Name: 1]" : String).data =
      b1.data ++ '1' :: (b2.data ++ '2' :: a2.data) := by
    rw [h1, h2]
    simp only [String.data_append]
    simp
  have hafter := hasAfter_of_append '1' '2' b1.data (b2.data ++ '2' :: a2.data) (by simp)
  rw [← hd] at hafter
  exact absurd hafter (by decide)

/-- C13, as amended.  For an entity of a map whose value is a UnitFloat, Enum,
Class, Offset or EnumRef, `stringList` renders the item line with a bracketed
summary that lists every field of the value with its value: unit tag then
value for a UnitFloat, type-id then enum-id for an Enum, Name then ClassID for
a Class, Name, ClassID then the integer for an Offset, and type-id, enum-id,
ClassID then Name for an EnumRef. -/
theorem stringList_field_summary (F : TextFormat) (ρ : RangeOrder) (hρ : ρ.Valid)
    (items : EntityMap) (indent : Nat) (item : DescriptorEntity) (hmem : item ∈ items) :
    (∀ u, item.Value = .unitFloat u →
      RendersItem F ρ items indent item.Type_ item.Key
        ("[Type: " ++ u.Type_ ++ ", Value: " ++ F.float u.Value ++ "]")) ∧
    (∀ e, item.Value = .enum e →
      RendersItem F ρ items indent item.Type_ item.Key
        ("[Type: " ++ e.Type_ ++ ", Enum: " ++ e.Enum ++ "]")) ∧
    (∀ c, item.Value = .class_ c →
      RendersItem F ρ items indent item.Type_ item.Key
        ("[Name: " ++ c.Name ++ ", Class: " ++ c.Class ++ "]")) ∧
    (∀ o, item.Value = .offset o →
      RendersItem F ρ items indent item.Type_ item.Key
        ("[Name: " ++ o.Name ++ ", Class: " ++ o.Class ++ " Value: " ++ toString o.Value
          ++ "]")) ∧
    (∀ e, item.Value = .referenceEnum e →
      RendersItem F ρ items indent item.Type_ item.Key
        ("[Type: " ++ e.Type_ ++ ", Enum: " ++ e.Enum ++ ", Class: " ++ e.Class ++ " Name: "
          ++ e.Name ++ "]")) := by
  have h := stringList_renders_item F ρ hρ items indent item hmem
  refine ⟨?_, ?_, ?_, ?_, ?_⟩ <;>
  · intro x hx
    rw [hx] at h
    simpa only [valueString] using h

theorem stringList_field_summary_witness :
    insertionOrder.Valid ∧
    (⟨"ref", "Enmr", .referenceEnum ⟨"1", "2", "3", "4"⟩⟩ : DescriptorEntity) ∈
      ([⟨"k", "long", .int32 7⟩, ⟨"ref", "Enmr", .referenceEnum ⟨"1", "2", "3", "4"⟩⟩] :
        EntityMap) ∧
    ∀ e, Value.referenceEnum ⟨"1", "2", "3", "4"⟩ = .referenceEnum e →
      RendersItem plainFormat insertionOrder
        [⟨"k", "long", .int32 7⟩, ⟨"ref", "Enmr", .referenceEnum ⟨"1", "2", "3", "4"⟩⟩] 0
        "Enmr" "ref"
        ("[Type: " ++ e.Type_ ++ ", Enum: " ++ e.Enum ++ ", Class: " ++ e.Class ++ " Name: "
          ++ e.Name ++ "]") :=
  ⟨insertionOrder_valid, List.mem_cons_of_mem _ (List.mem_singleton.2 rfl),
    (stringList_field_summary plainFormat insertionOrder insertionOrder_valid
      [⟨"k", "long", .int32 7⟩, ⟨"ref", "Enmr", .referenceEnum ⟨"1", "2", "3", "4"⟩⟩] 0
      ⟨"ref", "Enmr", .referenceEnum ⟨"1", "2", "3", "4"⟩⟩
      (List.mem_cons_of_mem _ (List.mem_singleton.2 rfl))).2.2.2.2⟩

/-! ## C14: the line of a literal value -/

theorem join_singleton_string (x : String) : String.join [x] = x := by
  rw [join_cons_string]
  exact String.append_empty x

theorem valid_singleton (ρ : RangeOrder) (hρ : ρ.Valid) (item : DescriptorEntity) :
    ρ [item] = [0] := by
  have h := hρ [item]
  simp only [List.length_singleton, List.range_succ, List.range_zero, List.nil_append] at h
  exact List.perm_singleton.1 h

/-- C14. The text `stringList` gives for a map is the concatenation of one
block per entity of the map, each entity exactly once, and for an entity with
type tag `t`, key `k` and an Integer, Boolean or Text value the block is
exactly one line: the indentation of level `indent + 1`, `[t] k: `, the
literal text of the value (the decimal numeral of the integer, `true` or
`false`, the string itself) and a line break.  For a map with this entity
alone, that line is the whole text. -/
theorem stringList_literal_line (F : TextFormat) (ρ : RangeOrder) (hρ : ρ.Valid)
    (items : EntityMap) (indent : Nat) (item : DescriptorEntity) (text : String)
    (hmem : item ∈ items) (hlit : literalText item.Value = some text) :
    (∃ blocks : List String, stringList F ρ items indent = String.join blocks ∧
      blocks.length = items.length ∧
      blocks.Perm (items.map fun e =>
        itemLine F indent e.Type_ e.Key
          (valueString F ρ items.length e.Type_ indent e.Value))) ∧
      itemLine F indent item.Type_ item.Key
          (valueString F ρ items.length item.Type_ indent item.Value) =
        F.indent (indent + 1) ++ "[" ++ item.Type_ ++ "] " ++ item.Key ++ ": " ++ text
          ++ F.newLine ∧
      (items = [item] →
        stringList F ρ items indent =
          F.indent (indent + 1) ++ "[" ++ item.Type_ ++ "] " ++ item.Key ++ ": " ++ text
            ++ F.newLine) ∧
      RendersItem F ρ items indent item.Type_ item.Key text ∧
      itemLine F indent item.Type_ item.Key text =
        F.indent (indent + 1) ++ "[" ++ item.Type_ ++ "] " ++ item.Key ++ ": " ++ text
          ++ F.newLine ∧
      (∀ n, item.Value = .int32 n → text = toString n) ∧
      (item.Value = .bool true → text = "true") ∧
      (item.Value = .bool false → text = "false") ∧
      (∀ s, item.Value = .string s → text = s) := by
  have h := stringList_renders_item F ρ hρ items indent item hmem
  have hv := valueString_of_literalText F ρ items.length item.Type_ indent hlit
  rw [hv] at h
  have hperm := visit_blocks ρ hρ items (itemStrings F ρ items.length items indent)
    (length_itemStrings F ρ items.length indent items)
  refine ⟨⟨_, rfl, ?_, ?_⟩, by rw [hv]; rfl, ?_, h, rfl, ?_, ?_, ?_, ?_⟩
  · rw [hperm.length_eq, length_itemStrings]
  · have heq := itemStrings_eq_map F ρ items.length indent items
    rw [← heq]
    exact hperm
  · intro hitems
    subst hitems
    simp only [stringList, visit, valid_singleton ρ hρ item, List.map_cons, List.map_nil,
      join_singleton_string, itemStrings, List.getD_cons_zero, List.length_singleton]
    simp only [List.length_singleton] at hv
    rw [hv]
  · intro n hn
    rw [hn] at hlit
    simpa [literalText] using hlit.symm
  · intro hb
    rw [hb] at hlit
    simpa [literalText] using hlit.symm
  · intro hb
    rw [hb] at hlit
    simpa [literalText] using hlit.symm
  · intro s hs
    rw [hs] at hlit
    simpa [literalText] using hlit.symm

theorem stringList_literal_line_witness :
    reverseOrder.Valid ∧
    stringList plainFormat reverseOrder
        [⟨"n", "long", .int32 (-42)⟩, ⟨"b", "bool", .bool false⟩] 1 =
      "    [bool] b: false\n    [long] n: -42\n" ∧
    (∃ blocks : List String,
      stringList plainFormat reverseOrder
          [⟨"n", "long", .int32 (-42)⟩, ⟨"b", "bool", .bool false⟩] 1 = String.join blocks ∧
      blocks.length =
        ([⟨"n", "long", .int32 (-42)⟩, ⟨"b", "bool", .bool false⟩] : EntityMap).length ∧
      blocks.Perm
        (([⟨"n", "long", .int32 (-42)⟩, ⟨"b", "bool", .bool false⟩] : EntityMap).map fun e =>
          itemLine plainFormat 1 e.Type_ e.Key
            (valueString plainFormat reverseOrder
              ([⟨"n", "long", .int32 (-42)⟩, ⟨"b", "bool", .bool false⟩] : EntityMap).length
              e.Type_ 1 e.Value))) ∧
    itemLine plainFormat 1 "long" "n"
        (valueString plainFormat reverseOrder
          ([⟨"n", "long", .int32 (-42)⟩, ⟨"b", "bool", .bool false⟩] : EntityMap).length
          "long" 1 (.int32 (-42))) =
      plainFormat.indent (1 + 1) ++ "[" ++ "long" ++ "] " ++ "n" ++ ": " ++ "-42"
        ++ plainFormat.newLine ∧
    (([⟨"n", "long", .int32 (-42)⟩, ⟨"b", "bool", .bool false⟩] : EntityMap) =
        [⟨"n", "long", .int32 (-42)⟩] →
      stringList plainFormat reverseOrder
          [⟨"n", "long", .int32 (-42)⟩, ⟨"b", "bool", .bool false⟩] 1 =
        plainFormat.indent (1 + 1) ++ "[" ++ "long" ++ "] " ++ "n" ++ ": " ++ "-42"
          ++ plainFormat.newLine) ∧
    RendersItem plainFormat reverseOrder
      [⟨"n", "long", .int32 (-42)⟩, ⟨"b", "bool", .bool false⟩] 1 "long" "n" "-42" ∧
    itemLine plainFormat 1 "long" "n" "-42" =
      plainFormat.indent (1 + 1) ++ "[" ++ "long" ++ "] " ++ "n" ++ ": " ++ "-42"
        ++ plainFormat.newLine ∧
    (∀ n, Value.int32 (-42) = .int32 n → "-42" = toString n) ∧
    (Value.int32 (-42) = .bool true → "-42" = "true") ∧
    (Value.int32 (-42) = .bool false → "-42" = "false") ∧
    (∀ s, Value.int32 (-42) = .string s → "-42" = s) :=
  ⟨reverseOrder_valid, rfl,
    stringList_literal_line plainFormat reverseOrder reverseOrder_valid
      [⟨"n", "long", .int32 (-42)⟩, ⟨"b", "bool", .bool false⟩] 1
      ⟨"n", "long", .int32 (-42)⟩ "-42" (List.mem_cons_self _ _) rfl⟩

/-! ## C15: rendering twice -/

mutual
theorem valueString_congr (F : TextFormat) (ρ1 ρ2 : RangeOrder) (len : Nat) (ty : String)
    (indent : Nat) : ∀ v : Value, (∀ m ∈ v.maps, ρ1 m = ρ2 m) →
      valueString F ρ1 len ty indent v = valueString F ρ2 len ty indent v
  | .map items, h => by
    have h1 : ρ1 items = ρ2 items := h items (by simp [Value.maps])
    have h2 := itemStrings_congr F ρ1 ρ2 items.length (indent + 2) items
      (fun m hm => h m (by simp [Value.maps, hm]))
    simp only [valueString, h1, h2]
  | .descriptor ⟨name, cls, items⟩, h => by
    have h1 : ρ1 items = ρ2 items := h items (by simp [Value.maps])
    have h2 := itemStrings_congr F ρ1 ρ2 items.length (indent + 2) items
      (fun m hm => h m (by simp [Value.maps, hm]))
    simp only [valueString, Descriptor.String, h1, h2]
  | .float64 _, _ => by simp only [valueString]
  | .int32 _, _ => by simp only [valueString]
  | .bool _, _ => by simp only [valueString]
  | .unitFloat _, _ => by simp only [valueString]
  | .string _, _ => by simp only [valueString]
  | .enum _, _ => by simp only [valueString]
  | .class_ _, _ => by simp only [valueString]
  | .property _, _ => by simp only [valueString]
  | .offset _, _ => by simp only [valueString]
  | .referenceEnum _, _ => by simp only [valueString]
  | .nil, _ => by simp only [valueString]
theorem itemStrings_congr (F : TextFormat) (ρ1 ρ2 : RangeOrder) (len : Nat) (indent : Nat) :
    ∀ items : List (EntityOf Value), (∀ m ∈ itemsMaps items, ρ1 m = ρ2 m) →
      itemStrings F ρ1 len items indent = itemStrings F ρ2 len items indent
  | [], _ => by simp only [itemStrings]
  | ⟨key, ty, v⟩ :: rest, h => by
    have h1 := valueString_congr F ρ1 ρ2 len ty indent v
      (fun m hm => h m (by simp [itemsMaps, hm]))
    have h2 := itemStrings_congr F ρ1 ρ2 len indent rest
      (fun m hm => h m (by simp [itemsMaps, hm]))
    simp only [itemStrings, h1, h2]
end

/-- C15 as stated fails: two evaluations of `Descriptor.String` on the
descriptor with the items `A` and `B`, one in which `range` visits the map in
insertion order and one in which it visits it in reverse, give different
texts. -/
theorem Descriptor_String_twice_counterexample :
    insertionOrder.Valid ∧ reverseOrder.Valid ∧
      Descriptor.String plainFormat insertionOrder abDescriptor 0 =
        "Descriptor [2]: desc\n\x7b\n  [long] A: 1\n  [long] B: 2\n\x7d" ∧
      Descriptor.String plainFormat reverseOrder abDescriptor 0 =
        "Descriptor [2]: desc\n\x7b\n  [long] B: 2\n  [long] A: 1\n\x7d" ∧
      Descriptor.String plainFormat insertionOrder abDescriptor 0 ≠
        Descriptor.String plainFormat reverseOrder abDescriptor 0 :=
  ⟨insertionOrder_valid, reverseOrder_valid, rfl, rfl, by decide⟩

/-- C15, as amended.  Two evaluations of `Descriptor.String` on a descriptor
`d` at the same indent produce identical text when `range` visits each map of
`d` (its items and the maps nested in them) in the same order in both. -/
theorem Descriptor_String_same_order (F : TextFormat) (ρ1 ρ2 : RangeOrder) (d : Descriptor)
    (indent : Nat) (h : ∀ m ∈ d.maps, ρ1 m = ρ2 m) :
    Descriptor.String F ρ1 d indent = Descriptor.String F ρ2 d indent := by
  obtain ⟨name, cls, items⟩ := d
  have h1 : ρ1 items = ρ2 items := h items (by simp [Descriptor.maps])
  have h2 := itemStrings_congr F ρ1 ρ2 items.length indent items
    (fun m hm => h m (by simp [Descriptor.maps, hm]))
  simp only [Descriptor.String, h1, h2]

theorem Descriptor_String_same_order_witness :
    (∀ m ∈ listItemDescriptor.maps, insertionOrder m = smallFirstOrder m) ∧
      insertionOrder ≠ smallFirstOrder ∧
      Descriptor.String plainFormat insertionOrder listItemDescriptor 0 =
        Descriptor.String plainFormat smallFirstOrder listItemDescriptor 0 :=
  have h : ∀ m ∈ listItemDescriptor.maps, insertionOrder m = smallFirstOrder m := by
    intro m hm
    simp only [Descriptor.maps, listItemDescriptor, itemsMaps, Value.maps, List.append_nil,
      List.mem_cons, List.mem_singleton, List.not_mem_nil, or_false] at hm
    rcases hm with rfl | rfl <;> rfl
  ⟨h, fun hc => absurd (congrFun hc
      [⟨"a", "long", .nil⟩, ⟨"b", "long", .nil⟩, ⟨"c", "long", .nil⟩]) (by decide),
    Descriptor_String_same_order plainFormat insertionOrder smallFirstOrder
      listItemDescriptor 0 h⟩

/-! ## C16: the sub-decoders -/

/-- C16. Each sub-decoder succeeds exactly when its listed fields are read one
after the other, in the order of the data model, each read starting where the
one before ended, and it ends where the last read ends:
`newDescriptorUnitFloat` a 4-char unit tag then a 64-bit float (12 bytes in
all), `newDescriptorClass` Name then ClassID, `newDescriptorEnum` type-id then
enum-id, `newDescriptorProperty` Name, ClassID, Key,
`newDescriptorReferenceEnum` Name, ClassID, type-id, enum-id,
`newDescriptorOffset` Name, ClassID, then a 32-bit integer. -/
theorem subdecoders_read_fields :
    (∀ r u rd, newDescriptorUnitFloat r = .ok u rd ↔
      ∃ r1, r.ReadString 4 = .ok u.Type_ r1 ∧ r1.ReadFloat64 = .ok u.Value rd) ∧
    (∀ r u rd, newDescriptorUnitFloat r = .ok u rd →
      rd.buf = r.buf ∧ rd.Position = r.Position + 12) ∧
    (∀ r c rd, newDescriptorClass r = .ok c rd ↔
      ∃ r1, r.ReadUnicodeString = .ok c.Name r1 ∧ r1.ReadDynamicString = .ok c.Class rd) ∧
    (∀ r e rd, newDescriptorEnum r = .ok e rd ↔
      ∃ r1, r.ReadDynamicString = .ok e.Type_ r1 ∧ r1.ReadDynamicString = .ok e.Enum rd) ∧
    (∀ r p rd, newDescriptorProperty r = .ok p rd ↔
      ∃ r1 r2, r.ReadUnicodeString = .ok p.Name r1 ∧ r1.ReadDynamicString = .ok p.Class r2 ∧
        r2.ReadDynamicString = .ok p.Key rd) ∧
    (∀ r e rd, newDescriptorReferenceEnum r = .ok e rd ↔
      ∃ r1 r2 r3, r.ReadUnicodeString = .ok e.Name r1 ∧
        r1.ReadDynamicString = .ok e.Class r2 ∧ r2.ReadDynamicString = .ok e.Type_ r3 ∧
        r3.ReadDynamicString = .ok e.Enum rd) ∧
    (∀ r o rd, newDescriptorOffset r = .ok o rd ↔
      ∃ r1 r2, r.ReadUnicodeString = .ok o.Name r1 ∧ r1.ReadDynamicString = .ok o.Class r2 ∧
        r2.ReadInt32 = .ok o.Value rd) := by
  have hUnit : ∀ r u rd, newDescriptorUnitFloat r = .ok u rd ↔
      ∃ r1, r.ReadString 4 = .ok u.Type_ r1 ∧ r1.ReadFloat64 = .ok u.Value rd := by
    intro r u rd
    simp only [newDescriptorUnitFloat, Res.bind_eq_ok, Res.ok.injEq]
    constructor
    · rintro ⟨a, r1, h1, b, r2, h2, rfl, rfl⟩
      exact ⟨r1, h1, h2⟩
    · rintro ⟨r1, h1, h2⟩
      exact ⟨_, r1, h1, _, rd, h2, rfl, rfl⟩
  refine ⟨hUnit, ?_, ?_, ?_, ?_, ?_, ?_⟩
  · intro r u rd h
    obtain ⟨r1, h1, h2⟩ := (hUnit r u rd).1 h
    obtain ⟨hb1, hp1⟩ := ReadString_position h1
    obtain ⟨hb2, hp2⟩ := ReadFloat64_position h2
    exact ⟨hb2.trans hb1, by omega⟩
  · intro r c rd
    simp only [newDescriptorClass, Res.bind_eq_ok, Res.ok.injEq]
    constructor
    · rintro ⟨a, r1, h1, b, r2, h2, rfl, rfl⟩
      exact ⟨r1, h1, h2⟩
    · rintro ⟨r1, h1, h2⟩
      exact ⟨_, r1, h1, _, rd, h2, rfl, rfl⟩
  · intro r e rd
    simp only [newDescriptorEnum, Res.bind_eq_ok, Res.ok.injEq]
    constructor
    · rintro ⟨a, r1, h1, b, r2, h2, rfl, rfl⟩
      exact ⟨r1, h1, h2⟩
    · rintro ⟨r1, h1, h2⟩
      exact ⟨_, r1, h1, _, rd, h2, rfl, rfl⟩
  · intro r p rd
    simp only [newDescriptorProperty, Res.bind_eq_ok, Res.ok.injEq]
    constructor
    · rintro ⟨a, r1, h1, b, r2, h2, c, r3, h3, rfl, rfl⟩
      exact ⟨r1, r2, h1, h2, h3⟩
    · rintro ⟨r1, r2, h1, h2, h3⟩
      exact ⟨_, r1, h1, _, r2, h2, _, rd, h3, rfl, rfl⟩
  · intro r e rd
    simp only [newDescriptorReferenceEnum, Res.bind_eq_ok, Res.ok.injEq]
    constructor
    · rintro ⟨a, r1, h1, b, r2, h2, c, r3, h3, d, r4, h4, rfl, rfl⟩
      exact ⟨r1, r2, r3, h1, h2, h3, h4⟩
    · rintro ⟨r1, r2, r3, h1, h2, h3, h4⟩
      exact ⟨_, r1, h1, _, r2, h2, _, r3, h3, _, rd, h4, rfl, rfl⟩
  · intro r o rd
    simp only [newDescriptorOffset, Res.bind_eq_ok, Res.ok.injEq]
    constructor
    · rintro ⟨a, r1, h1, b, r2, h2, c, r3, h3, rfl, rfl⟩
      exact ⟨r1, r2, h1, h2, h3⟩
    · rintro ⟨r1, r2, h1, h2, h3⟩
      exact ⟨_, r1, h1, _, r2, h2, _, rd, h3, rfl, rfl⟩

/-! ## C17: the rectangle -/

theorem ReadInt32_bytes_at {r : Reader} {pre rest : List UInt8} (bs post : List UInt8)
    (hlen : bs.length = 4) (h : At r pre rest) (hrest : rest = bs ++ post) :
    ∃ r1, r.ReadInt32 = .ok (toInt32 (beNat bs)) r1 ∧ At r1 (pre ++ bs) post := by
  obtain ⟨r1, h1, h2⟩ := readBytes_at bs post h hrest
  have hl : ((bs.length : Nat) : Int) = 4 := by omega
  rw [hl] at h1
  exact ⟨r1, by simp only [Reader.ReadInt32, h1, Res.map], h2⟩

theorem wrapInt32_spec (x : Int) :
    (wrapInt32 x - x) % 2 ^ 32 = 0 ∧ -2 ^ 31 ≤ wrapInt32 x ∧ wrapInt32 x < 2 ^ 31 := by
  have h0 : 0 ≤ x % 2 ^ 32 := Int.emod_nonneg x (by norm_num)
  have h1 : x % 2 ^ 32 < 2 ^ 32 := Int.emod_lt_of_pos x (by norm_num)
  obtain ⟨y, hy⟩ := Int.eq_ofNat_of_zero_le h0
  have hy2 : y < 2 ^ 32 := by
    rw [hy] at h1
    exact_mod_cast h1
  have hmod : y % 2 ^ 32 = y := Nat.mod_eq_of_lt hy2
  simp only [wrapInt32, toInt32, hy, Int.toNat_ofNat, hmod]
  norm_num at hy hy2 ⊢
  split <;> omega

/-- C17. `NewRectangle` reads four consecutive 32-bit integers, each the
big-endian value of its four bytes as a signed integer, as top, left, bottom
and right in that order, and stops right after them; and for every rectangle
`X` is left, `Y` is top, and `Width` and `Height` are right - left and
bottom - top in 32-bit signed arithmetic: congruent to the difference modulo
2^32 and within `[-2^31, 2^31)`. -/
theorem NewRectangle_reads (r : Reader) (pre a b c d post : List UInt8)
    (ha : a.length = 4) (hb : b.length = 4) (hc : c.length = 4) (hd : d.length = 4)
    (h : At r pre (a ++ b ++ c ++ d ++ post)) :
    (∃ rd, NewRectangle r =
        .ok ⟨toInt32 (beNat a), toInt32 (beNat b), toInt32 (beNat c), toInt32 (beNat d)⟩ rd ∧
      At rd (pre ++ a ++ b ++ c ++ d) post) ∧
    ∀ rect : Rectangle, rect.X = rect.left ∧ rect.Y = rect.top ∧
      (rect.Width - (rect.right - rect.left)) % 2 ^ 32 = 0 ∧
      -2 ^ 31 ≤ rect.Width ∧ rect.Width < 2 ^ 31 ∧
      (rect.Height - (rect.bottom - rect.top)) % 2 ^ 32 = 0 ∧
      -2 ^ 31 ≤ rect.Height ∧ rect.Height < 2 ^ 31 := by
  constructor
  · obtain ⟨r1, h1, hat1⟩ := ReadInt32_bytes_at a (b ++ (c ++ (d ++ post))) ha h
      (by simp only [List.append_assoc])
    obtain ⟨r2, h2, hat2⟩ := ReadInt32_bytes_at b (c ++ (d ++ post)) hb hat1 rfl
    obtain ⟨r3, h3, hat3⟩ := ReadInt32_bytes_at c (d ++ post) hc hat2 rfl
    obtain ⟨r4, h4, hat4⟩ := ReadInt32_bytes_at d post hd hat3 rfl
    exact ⟨r4, by simp only [NewRectangle, h1, h2, h3, h4, Res.bind], hat4⟩
  · intro rect
    obtain ⟨w1, w2, w3⟩ := wrapInt32_spec (rect.right - rect.left)
    obtain ⟨g1, g2, g3⟩ := wrapInt32_spec (rect.bottom - rect.top)
    exact ⟨rfl, rfl, w1, w2, w3, g1, g2, g3⟩

theorem NewRectangle_reads_witness :
    At ⟨rectangleStream, 1⟩ [0xEE]
        (be32 1 ++ be32 2 ++ [1, 2, 3, 4] ++ [0xFF, 0xFF, 0xFF, 0xFF] ++ [0xEE]) ∧
      NewRectangle ⟨rectangleStream, 1⟩ = .ok ⟨1, 2, 0x01020304, -1⟩ ⟨rectangleStream, 17⟩ ∧
      (⟨0, 2 ^ 31 - 1, 0, -2 ^ 31⟩ : Rectangle).Width = 1 ∧
      (∃ rd, NewRectangle ⟨rectangleStream, 1⟩ =
          .ok ⟨toInt32 (beNat (be32 1)), toInt32 (beNat (be32 2)),
            toInt32 (beNat [1, 2, 3, 4]), toInt32 (beNat [0xFF, 0xFF, 0xFF, 0xFF])⟩ rd ∧
        At rd ([0xEE] ++ be32 1 ++ be32 2 ++ [1, 2, 3, 4] ++ [0xFF, 0xFF, 0xFF, 0xFF])
          [0xEE]) ∧
      ∀ rect : Rectangle, rect.X = rect.left ∧ rect.Y = rect.top ∧
        (rect.Width - (rect.right - rect.left)) % 2 ^ 32 = 0 ∧
        -2 ^ 31 ≤ rect.Width ∧ rect.Width < 2 ^ 31 ∧
        (rect.Height - (rect.bottom - rect.top)) % 2 ^ 32 = 0 ∧
        -2 ^ 31 ≤ rect.Height ∧ rect.Height < 2 ^ 31 :=
  have hat : At ⟨rectangleStream, 1⟩ [0xEE]
      (be32 1 ++ be32 2 ++ [1, 2, 3, 4] ++ [0xFF, 0xFF, 0xFF, 0xFF] ++ [0xEE]) := ⟨rfl, rfl⟩
  ⟨hat, rfl, by decide,
    NewRectangle_reads ⟨rectangleStream, 1⟩ [0xEE] (be32 1) (be32 2) [1, 2, 3, 4]
      [0xFF, 0xFF, 0xFF, 0xFF] [0xEE] rfl rfl rfl rfl hat⟩

/-! ## C18: `Idnt`, `indx` and `name` -/

/-- C18. For a reference item whose type tag is `Idnt`, `indx` or `name`,
`newDescriptorReference` does not fail and reads nothing after the tag: the
item is decoded with an empty `Value`, the cursor is 4 bytes further, right
after the tag, and the loop goes on from there with the next item. -/
theorem referenceEntity_no_payload (reader r1 : Reader) (ty : String) (n : Nat)
    (value : EntityMap) (hty : reader.ReadString 4 = .ok ty r1)
    (htag : ty = "Idnt" ∨ ty = "indx" ∨ ty = "name") :
    referenceEntity reader = .ok ⟨"", ty, .nil⟩ r1 ∧
      r1.buf = reader.buf ∧ r1.Position = reader.Position + 4 ∧
      entityLoop referenceEntity (n + 1) value reader =
        entityLoop referenceEntity n (mapSet value ⟨"", ty, .nil⟩) r1 := by
  have hent : referenceEntity reader = .ok ⟨"", ty, .nil⟩ r1 := by
    rcases htag with rfl | rfl | rfl <;>
      simp [referenceEntity, hty, Res.bind, referenceValue, Res.map]
  obtain ⟨hb, hp⟩ := ReadString_position hty
  refine ⟨hent, hb, hp, ?_⟩
  rw [entityLoop, hent]
  rfl

theorem referenceEntity_no_payload_witness :
    referenceEntity ⟨identifierReferenceStream, 4⟩ =
        .ok ⟨"", "Idnt", .nil⟩ ⟨identifierReferenceStream, 8⟩ ∧
      (⟨identifierReferenceStream, 8⟩ : Reader).buf =
        (⟨identifierReferenceStream, 4⟩ : Reader).buf ∧
      (⟨identifierReferenceStream, 8⟩ : Reader).Position =
        (⟨identifierReferenceStream, 4⟩ : Reader).Position + 4 ∧
      entityLoop referenceEntity (2 + 1) [] ⟨identifierReferenceStream, 4⟩ =
        entityLoop referenceEntity 2 (mapSet [] ⟨"", "Idnt", .nil⟩)
          ⟨identifierReferenceStream, 8⟩ :=
  referenceEntity_no_payload ⟨identifierReferenceStream, 4⟩ ⟨identifierReferenceStream, 8⟩
    "Idnt" 2 [] rfl (Or.inl rfl)

/-! ## C19: termination -/

theorem readBytes_before_start {r : Reader} (n : Int) (h : r.Position < 0) :
    r.readBytes n = .error .endOfStream := by
  simp only [Reader.readBytes]
  rw [if_neg]
  intro hc
  omega

theorem newDescriptorList_before_start {r : Reader} (fuel : Nat) (h : r.Position < 0) :
    newDescriptorList (fuel + 1) r = .error .endOfStream := by
  simp only [newDescriptorList, Reader.ReadInt32, readBytes_before_start 4 h, Res.map, Res.bind]

theorem NewDescriptor_before_start {r : Reader} (fuel : Nat) (h : r.Position < 0) :
    NewDescriptor fuel r = .error .endOfStream := by
  simp only [NewDescriptor, descriptorWith, Reader.ReadUnicodeString, Reader.ReadInt32,
    readBytes_before_start 4 h, Res.map, Res.bind]

theorem remaining_le_length (s : List UInt8) (p : Int) (h : 0 ≤ p) :
    (⟨s, p⟩ : Reader).remaining ≤ s.length := by
  simp only [Reader.remaining]
  omega

/-- C19. For every byte stream `s` and every start position, `NewDescriptor`
terminates with fuel `s.length + 1`: it returns a descriptor or fails, and more
fuel does not change the outcome; the recursion through `newDescriptorList` is
as well bounded by the length of the stream, and `newDescriptorReference` does
not recurse.  A negative count is an empty loop, and a negative `alis` or
`tdta` length makes the skip fail. -/
theorem NewDescriptor_terminates (s : List UInt8) (p : Int) (k : Nat) :
    NewDescriptor (s.length + 1 + k) ⟨s, p⟩ ≠ .outOfFuel ∧
      NewDescriptor (s.length + 1 + k) ⟨s, p⟩ = NewDescriptor (s.length + 1) ⟨s, p⟩ ∧
      newDescriptorList (s.length + 1 + k) ⟨s, p⟩ ≠ .outOfFuel ∧
      newDescriptorList (s.length + 1 + k) ⟨s, p⟩ = newDescriptorList (s.length + 1) ⟨s, p⟩ ∧
      newDescriptorReference ⟨s, p⟩ ≠ .outOfFuel ∧
      NewDescriptor 1 ⟨negativeCountStream, 0⟩ =
        .ok ⟨"", "desc", []⟩ ⟨negativeCountStream, 16⟩ ∧
      NewDescriptor 2 ⟨negativeLengthStream, 0⟩ = .error .endOfStream := by
  have hdesc : ∀ j, NewDescriptor (s.length + 1 + j) ⟨s, p⟩ ≠ .outOfFuel := by
    intro j
    by_cases hp : p < 0
    · rw [NewDescriptor_before_start _ (show (⟨s, p⟩ : Reader).Position < 0 from hp)]
      exact fun hc => Res.noConfusion hc
    · exact terminates_NewDescriptor _ ⟨s, p⟩
        (by have := remaining_le_length s p (by omega); omega)
  have hlist : ∀ j, newDescriptorList (s.length + 1 + j) ⟨s, p⟩ ≠ .outOfFuel := by
    intro j
    by_cases hp : p < 0
    · rw [show s.length + 1 + j = (s.length + j) + 1 from by omega,
        newDescriptorList_before_start _ (show (⟨s, p⟩ : Reader).Position < 0 from hp)]
      exact fun hc => Res.noConfusion hc
    · exact terminates_newDescriptorList _ ⟨s, p⟩
        (by have := remaining_le_length s p (by omega); omega)
  refine ⟨hdesc k, ?_, hlist k, ?_, ?_, rfl, rfl⟩
  · exact extends_NewDescriptor (Nat.le_add_right _ k) ⟨s, p⟩ (hdesc 0)
  · exact extends_newDescriptorList (Nat.le_add_right _ k) ⟨s, p⟩ (hlist 0)
  · exact terminates_newDescriptorReference ((⟨s, p⟩ : Reader).remaining + 1) ⟨s, p⟩
      (Nat.lt_succ_self _)

/-! ## C20: the cursor -/

/-- C20. On every buffer and from every start position, each primitive read
and the skip, for every 32-bit length value, leave the cursor in the same
buffer at a position greater than or equal to the one before, and so do the
step `Skip(ReadInt32())` of `alis` and `tdta`, the decoders
`newDescriptorList`, `newDescriptorReference` and `NewDescriptor` and each
iteration of their loops; a skip by a negative length fails and moves
nothing. -/
theorem cursor_moves_forward :
    Forward Reader.ReadByte ∧ Forward Reader.ReadInt32 ∧ Forward Reader.ReadFloat64 ∧
      (∀ n : Int, Forward (fun r => r.ReadString n)) ∧
      Forward Reader.ReadUnicodeString ∧ Forward Reader.ReadDynamicString ∧
      (∀ n : Int, Forward (fun r => r.Skip n)) ∧
      (∀ (r : Reader) (n : Int), n < 0 → r.Skip n = .error .endOfStream) ∧
      Forward skipLength ∧
      Forward referenceEntity ∧ Forward newDescriptorReference ∧
      (∀ fuel : Nat, Forward (listEntity (newDescriptorList fuel))) ∧
      (∀ fuel : Nat, Forward (newDescriptorList fuel)) ∧
      (∀ fuel : Nat, Forward (NewDescriptor fuel)) ∧
      skipLength ⟨negativeLengthStream, 38⟩ = .error .endOfStream := by
  refine ⟨forward_ReadByte, forward_ReadInt32, forward_ReadFloat64, forward_ReadString,
    forward_ReadUnicodeString, forward_ReadDynamicString, forward_Skip, ?_,
    forward_skipLength, forward_referenceEntity, forward_newDescriptorReference,
    fun fuel => forward_listEntity (forward_newDescriptorList fuel),
    forward_newDescriptorList, forward_NewDescriptor, rfl⟩
  intro r n hn
  simp only [Reader.Skip, Reader.readBytes]
  rw [if_neg (fun hc => by omega)]
  rfl

end Gopsd
